import Mathlib

/-!
# Verification of the `cr-helper` core (`cr-core` crate)

A shallow embedding, in Lean 4, of the diff parser, diff navigator, comment
manager/index, session-id validation, schema migration and lazy-file loading
of the `cr-helper` repository, together with theorems settling the spec
claims about them.

Modelling conventions:
* Rust `String`/`&str` become Lean `String`; `PathBuf` becomes `String`.
* Rust `usize`/`u32` become `Nat`; where a parse has an overflow bound the
  bound (`2^64`, `2^32`) is modelled explicitly.
* Fallible functions (`Result`) become `Except CrHelperError`.
* A reachable Rust `panic!`/`unwrap` abort is modelled explicitly
  (`RunErr.panicked`, or `Option` for `load_lazy_file`); it is distinct from
  a returned error.
* The blake3 content hashes inside `FileId.from_path` / `LineId.from_content`
  / `HunkId.new` are modelled as injective tagged encodings of their inputs;
  no claim depends on the hash values themselves.
* Timestamps (`chrono::DateTime`) are real-time values; they are modelled as
  `Nat` clock readings passed in explicitly where a mutation refreshes
  `updated_at`, and omitted from structures whose claims never mention them.
* `std::collections::HashMap` is modelled as an association list with unique
  keys (the operations below preserve key uniqueness); claims about the
  comment index never depend on iteration order.
-/

set_option maxHeartbeats 1000000

namespace CrHelper

/-- Error type, from `src/crates/cr-core/src/error.rs` (only the variants the
verified code constructs). -/
inductive CrHelperError where
  | invalidDiff (msg : String)
  | validation (msg : String)
  | commentNotFound (id : String)
  | git (msg : String)
deriving DecidableEq, Repr

/-- Outcome of running code that may also abort: either a returned
`CrHelperError` or a Rust panic (e.g. `Option::unwrap` on `None`). -/
inductive RunErr where
  | err (e : CrHelperError)
  | panicked (msg : String)
deriving DecidableEq, Repr

instance {ε α : Type} [DecidableEq ε] [DecidableEq α] : DecidableEq (Except ε α)
  | .error e, .error e' => decidable_of_iff (e = e') (by simp)
  | .error _, .ok _ => .isFalse (by simp)
  | .ok _, .error _ => .isFalse (by simp)
  | .ok a, .ok b => decidable_of_iff (a = b) (by simp)

/-! ## String primitives

The Rust string operations are modelled over the string's character list
(`String.data`), which the Lean kernel can evaluate on literals; all the
strings involved in the claims are ASCII, where Rust's byte-based slicing
coincides with character-based slicing. -/

/-- Split a character list at every separator position (separators given by
the predicate), keeping empty pieces; the result is always nonempty. -/
def splitPred (p : Char → Bool) : List Char → List (List Char)
  | [] => [[]]
  | x :: xs =>
    if p x then [] :: splitPred p xs
    else
      match splitPred p xs with
      | [] => [[x]]
      | h :: t => (x :: h) :: t

/-- Rust `str::split(c)`: split at every occurrence of `c`, keeping empty
pieces. -/
def splitChar (c : Char) (l : List Char) : List (List Char) :=
  splitPred (fun x => x = c) l

/-- `str::split` lifted to `String`. -/
def strSplit (s : String) (c : Char) : List String :=
  (splitChar c s.data).map String.mk

/-- Rust `char::is_whitespace`: the Unicode White_Space code points
(U+0009..U+000D, U+0020, U+0085, U+00A0, U+1680, U+2000..U+200A, U+2028,
U+2029, U+202F, U+205F, U+3000). -/
def isWhite (c : Char) : Bool :=
  (0x09 ≤ c.toNat ∧ c.toNat ≤ 0x0D) ∨ c.toNat = 0x20 ∨
  c.toNat = 0x85 ∨ c.toNat = 0xA0 ∨ c.toNat = 0x1680 ∨
  (0x2000 ≤ c.toNat ∧ c.toNat ≤ 0x200A) ∨
  c.toNat = 0x2028 ∨ c.toNat = 0x2029 ∨ c.toNat = 0x202F ∨
  c.toNat = 0x205F ∨ c.toNat = 0x3000

/-- Rust `str::split_whitespace`: maximal nonempty runs of non-whitespace
characters. -/
def strSplitWhitespace (s : String) : List String :=
  ((splitPred isWhite s.data).filter (· ≠ [])).map String.mk

/-- Rust `str::lines`: split on `\n`, drop a final empty piece (trailing
newline), strip one trailing `\r` per line. -/
def strLines (s : String) : List String :=
  let parts := splitChar '\n' s.data
  let parts := match parts.getLast? with
    | some [] => parts.dropLast
    | _ => parts
  parts.map (fun l => String.mk (if l.getLast? = some '\r' then l.dropLast else l))

/-- Rust `str::starts_with(p)` for a literal `p`. -/
def strStarts (s p : String) : Bool :=
  p.data.isPrefixOf s.data

/-- The numeric value of a list of ASCII digits. -/
def digitsToNat (l : List Char) : Nat :=
  l.foldl (fun acc c => acc * 10 + (c.toNat - '0'.toNat)) 0

/-! ## Identifier primitives (`src/crates/cr-core/src/types.rs`) -/

/-- `FileId::from_path`: blake3 hash of the path, modelled as a tagged
encoding of the path. -/
def FileId.from_path (path : String) : String := "f_" ++ path

/-- `FileId::from_string`. -/
def FileId.from_string (s : String) : String := s

/-- `HunkId::new`: `format!("{}:h{}", file_id.0, hunk_index)`. -/
def HunkId.new (file_id : String) (hunk_index : Nat) : String :=
  file_id ++ ":h" ++ toString hunk_index

/-- `LineId::from_content`: blake3 hash of
`format!("{}:{}:{}", file_path, line_num, content)`, modelled as a tagged
encoding of the same triple. -/
def LineId.from_content (file_path : String) (content : String) (line_num : Nat) : String :=
  "l_" ++ file_path ++ ":" ++ toString line_num ++ ":" ++ content

/-- Rust `str::splitn(2, c)`: at most two pieces, split at the first
occurrence of `c`. -/
def splitnTwo (s : String) (sep : Char) : List String :=
  let pre := s.data.takeWhile (· ≠ sep)
  if pre.length = s.data.length then [s]
  else [String.mk pre, String.mk (s.data.drop (pre.length + 1))]

/-- The UTF-8 byte length of a string (Rust `str::len`). -/
def utf8Len (s : String) : Nat :=
  (s.data.map Char.utf8Size).sum

/-- `SessionId::validate` (`types.rs:129-140`): length at least 23 bytes, a
`-` separator, and a 14-ASCII-digit timestamp part before the first `-`. -/
def SessionId.validate (s : String) : Bool :=
  if utf8Len s < 23 then false
  else
    let parts := splitnTwo s '-'
    if parts.length ≠ 2 then false
    else (parts.headD "").data.length = 14 && (parts.headD "").data.all Char.isDigit

/-- `SessionId::from_string` (`types.rs:116-126`). -/
def SessionId.from_string (s : String) : Except CrHelperError String :=
  if SessionId.validate s then .ok s
  else .error (.validation ("Invalid session ID format: " ++ s))

/-- `ProtocolVersion` (`types.rs:155-168`). -/
structure ProtocolVersion where
  major : Nat
  minor : Nat
deriving DecidableEq, Repr

/-- `ProtocolVersion::is_compatible`: majors must match. -/
def ProtocolVersion.is_compatible (v other : ProtocolVersion) : Bool :=
  v.major == other.major

/-- `ProtocolVersion::V1_0`. -/
def ProtocolVersion.v1_0 : ProtocolVersion := ⟨1, 0⟩

/-! ## Numeric parsing

Rust's `usize::from_str` / `u32::from_str`: an optional leading `+`, then at
least one ASCII digit, value within the type's range. -/

/-- Rust unsigned-integer parsing with an explicit range bound. -/
def parseUInt (bound : Nat) (s : String) : Option Nat :=
  let t := if s.data.head? = some '+' then s.data.tail else s.data
  if t ≠ [] ∧ t.all Char.isDigit then
    if digitsToNat t < bound then some (digitsToNat t) else none
  else none

/-- `usize::from_str` on a 64-bit target. -/
def parseUsize (s : String) : Option Nat := parseUInt (2 ^ 64) s

/-- `u32::from_str`. -/
def parseU32 (s : String) : Option Nat := parseUInt (2 ^ 32) s

/-! ## Diff data model (`src/crates/cr-core/src/diff/model.rs`)

`DiffMetadata` (diff source, wall-clock timestamp, repository path) is not
modelled: no verified claim mentions it, and its timestamp is real time. -/

/-- `LineType`. -/
inductive LineType where
  | added
  | deleted
  | context
  | noNewline
deriving DecidableEq, Repr

/-- `Range` (hunk line range). -/
structure Range where
  start : Nat
  count : Nat
deriving DecidableEq, Repr

/-- `Line`. -/
structure Line where
  id : String
  lineType : LineType
  content : String
  old_line_num : Option Nat
  new_line_num : Option Nat
deriving DecidableEq, Repr

/-- `Hunk`. -/
structure Hunk where
  id : String
  header : String
  old_range : Range
  new_range : Range
  lines : List Line
deriving DecidableEq, Repr

/-- `FileMode`. -/
inductive FileMode where
  | added
  | deleted
  | modified
  | renamed
  | copied
  | binary
deriving DecidableEq, Repr

/-- `FileDiff`. -/
structure FileDiff where
  id : String
  old_path : Option String
  new_path : Option String
  mode : FileMode
  hunks : List Hunk
  lazy : Bool
deriving DecidableEq, Repr

/-- `FileDiff::total_lines`. -/
def FileDiff.total_lines (f : FileDiff) : Nat :=
  (f.hunks.map (fun h => h.lines.length)).sum

/-- `FileDiff::needs_loading`. -/
def FileDiff.needs_loading (f : FileDiff) : Bool :=
  f.lazy && f.hunks.isEmpty

/-- `FileDiff::lazy_new`. -/
def FileDiff.lazy_new (path : String) : FileDiff :=
  { id := FileId.from_path path
    old_path := none
    new_path := some path
    mode := .added
    hunks := []
    lazy := true }

/-- `DiffStats`. -/
structure DiffStats where
  files_changed : Nat
  insertions : Nat
  deletions : Nat
deriving DecidableEq, Repr

/-- `DiffData` (metadata omitted, see the module header). -/
structure DiffData where
  files : List FileDiff
  stats : DiffStats
deriving DecidableEq, Repr

/-- `DiffData::total_lines`. -/
def DiffData.total_lines (d : DiffData) : Nat :=
  (d.files.map FileDiff.total_lines).sum

/-- `DiffStats::from_diff` (counts Added/Deleted lines over all files). -/
def DiffStats.from_diff (files : List FileDiff) : DiffStats :=
  { files_changed := files.length
    insertions :=
      (files.map (fun f => (f.hunks.map (fun h =>
        (h.lines.filter (fun l => l.lineType = .added)).length)).sum)).sum
    deletions :=
      (files.map (fun f => (f.hunks.map (fun h =>
        (h.lines.filter (fun l => l.lineType = .deleted)).length)).sum)).sum }

/-- `DiffSource` from the diff model (`diff/model.rs:239-253`). -/
inductive DiffSource where
  | workingTree
  | staged
  | commit (commit : String)
  | commitRange (src dst : String)
  | branch (branch : String)
  | custom (args : List String)
deriving DecidableEq, Repr

/-- `DiffSource::to_git_args` from the diff model (`diff/model.rs:257-266`). -/
def DiffSource.to_git_args : DiffSource → List String
  | .workingTree => []
  | .staged => ["--staged"]
  | .commit c => [c ++ "^.." ++ c]
  | .commitRange f t => [f ++ ".." ++ t]
  | .branch b => [b]
  | .custom args => args

/-! ## Diff parser (`src/crates/cr-core/src/diff/parser.rs`) -/

/-- `ParserConfig` (`parser.rs:10-25`): whether to include binary files and
an optional maximum file size (default 10 MiB). -/
structure ParserConfig where
  include_binary : Bool
  max_file_size : Option Nat
deriving DecidableEq, Repr

/-- Rust `str::strip_prefix`. -/
def stripPfx (p s : String) : Option String :=
  if p.data.isPrefixOf s.data then some (String.mk (s.data.drop p.data.length)) else none

/-- Rust `str::trim_start_matches(c)`. -/
def trimStartMatches (c : Char) (s : String) : String :=
  String.mk (s.data.dropWhile (· = c))

/-- `DiffParser::parse_diff_header` (`parser.rs:300-314`). -/
def parse_diff_header (line : String) : Except RunErr (Option String × Option String) :=
  let parts := strSplit line ' '
  if parts.length < 4 then
    .error (.err (.invalidDiff ("Invalid diff header: " ++ line)))
  else
    .ok (stripPfx "a/" (parts.getD 2 ""), stripPfx "b/" (parts.getD 3 ""))

/-- `DiffParser::parse_range` (`parser.rs:334-348`). -/
def parse_range (s : String) : Except RunErr Range :=
  let parts := strSplit s ','
  match parseUsize (parts.getD 0 "") with
  | none => .error (.err (.invalidDiff ("Invalid range: " ++ s)))
  | some start =>
    if parts.length > 1 then
      match parseUsize (parts.getD 1 "") with
      | none => .error (.err (.invalidDiff ("Invalid range: " ++ s)))
      | some count => .ok ⟨start, count⟩
    else .ok ⟨start, 1⟩

/-- `DiffParser::parse_hunk_header` (`parser.rs:317-331`). -/
def parse_hunk_header (line : String) : Except RunErr (Range × Range) :=
  let parts := strSplitWhitespace line
  if parts.length < 4 then
    .error (.err (.invalidDiff ("Invalid hunk header: " ++ line)))
  else
    match parse_range (trimStartMatches '-' (parts.getD 1 "")) with
    | .error e => .error e
    | .ok old_range =>
      match parse_range (trimStartMatches '+' (parts.getD 2 "")) with
      | .error e => .error e
      | .ok new_range => .ok (old_range, new_range)

/-- `FileDiffBuilder` (`parser.rs:420-438`). -/
structure FileDiffBuilder where
  id : String
  old_path : Option String
  new_path : Option String
  mode : FileMode
  hunks : List Hunk
deriving DecidableEq, Repr

/-- `FileDiffBuilder::new`: the `unwrap` on `new_path.or(old_path)` panics
when both paths are absent. -/
def FileDiffBuilder.new (old_path new_path : Option String) :
    Except RunErr FileDiffBuilder :=
  match new_path.or old_path with
  | none => .error (.panicked "called Option::unwrap on a None value")
  | some p =>
    .ok { id := FileId.from_path p, old_path, new_path, mode := .modified, hunks := [] }

/-- `FileDiffBuilder::build`. -/
def FileDiffBuilder.build (b : FileDiffBuilder) : FileDiff :=
  { id := b.id, old_path := b.old_path, new_path := b.new_path,
    mode := b.mode, hunks := b.hunks, lazy := false }

/-- `HunkBuilder` (`parser.rs:453-481`). -/
structure HunkBuilder where
  id : String
  header : String
  old_range : Range
  new_range : Range
  lines : List Line
deriving DecidableEq, Repr

/-- `HunkBuilder::build`. -/
def HunkBuilder.build (b : HunkBuilder) : Hunk :=
  { id := b.id, header := b.header, old_range := b.old_range,
    new_range := b.new_range, lines := b.lines }

/-- `DiffParser::calculate_line_nums` (`parser.rs:393-410`): running offsets
over the lines appended to the hunk so far. -/
def calculate_line_nums (line_type : LineType) (hunk : HunkBuilder) :
    Option Nat × Option Nat :=
  let old_offset := (hunk.lines.filter
    (fun l => l.lineType = .deleted ∨ l.lineType = .context)).length
  let new_offset := (hunk.lines.filter
    (fun l => l.lineType = .added ∨ l.lineType = .context)).length
  match line_type with
  | .added => (none, some (hunk.new_range.start + new_offset))
  | .deleted => (some (hunk.old_range.start + old_offset), none)
  | .context => (some (hunk.old_range.start + old_offset),
                 some (hunk.new_range.start + new_offset))
  | .noNewline => (none, none)

/-- `DiffParser::parse_line` (`parser.rs:351-390`). In Rust it returns
`Result<Option<Line>>` but no path produces an error, so it is modelled as
`Option Line` (`none` = line skipped). -/
def parse_line (line : String) (current_file : Option FileDiffBuilder)
    (hunk : HunkBuilder) : Option Line :=
  if line.data = [] then none
  else
    let first_char := line.data.headD ' '
    let classified : Option (LineType × String) :=
      if first_char = '+' then some (.added, String.mk (line.data.drop 1))
      else if first_char = '-' then some (.deleted, String.mk (line.data.drop 1))
      else if first_char = ' ' then some (.context, String.mk (line.data.drop 1))
      else if first_char = '\\' then some (.noNewline, line)
      else none
    match classified with
    | none => none
    | some (line_type, content) =>
      let nums := calculate_line_nums line_type hunk
      let file_path := (current_file.bind
        (fun f => f.new_path.or f.old_path)).getD "unknown"
      let line_num := (nums.2.or nums.1).getD 0
      some { id := LineId.from_content file_path content line_num
             lineType := line_type
             content := content
             old_line_num := nums.1
             new_line_num := nums.2 }

/-- The parser's loop state: completed files, the file block being built,
and the hunk being built. -/
structure ParseState where
  files : List FileDiff
  current_file : Option FileDiffBuilder
  current_hunk : Option HunkBuilder
deriving DecidableEq, Repr

/-- `current_hunk.take()` + push of the built hunk into the current file
(`parser.rs:55-59`, `95-99`, `119-123`). -/
def saveHunk (st : ParseState) : ParseState :=
  match st.current_hunk with
  | none => st
  | some hunk =>
    match st.current_file with
    | some f =>
      { st with current_file := some { f with hunks := f.hunks ++ [hunk.build] },
                current_hunk := none }
    | none => { st with current_hunk := none }

/-- `current_file.take()` + push of the built file (`parser.rs:60-62`,
`124-126`). -/
def saveFile (st : ParseState) : ParseState :=
  match st.current_file with
  | none => st
  | some f => { st with files := st.files ++ [f.build], current_file := none }

/-- Set the current file's mode, if a file block is open. -/
def setMode (st : ParseState) (mode : FileMode) : ParseState :=
  match st.current_file with
  | none => st
  | some f => { st with current_file := some { f with mode := mode } }

/-- One iteration of the `parse` loop body (`parser.rs:51-116`). -/
def processLine (st : ParseState) (line : String) : Except RunErr ParseState :=
  if strStarts line "diff --git " then
    let st := saveFile (saveHunk st)
    match parse_diff_header line with
    | .error e => .error e
    | .ok paths =>
      match FileDiffBuilder.new paths.1 paths.2 with
      | .error e => .error e
      | .ok fb => .ok { st with current_file := some fb }
  else if strStarts line "Binary files " then .ok (setMode st .binary)
  else if strStarts line "new file mode" then .ok (setMode st .added)
  else if strStarts line "deleted file mode" then .ok (setMode st .deleted)
  else if strStarts line "rename from " || strStarts line "rename to " then
    .ok (setMode st .renamed)
  else if strStarts line "copy from " || strStarts line "copy to " then
    .ok (setMode st .copied)
  else if strStarts line "@@ " then
    let st := saveHunk st
    match parse_hunk_header line with
    | .error e => .error e
    | .ok ranges =>
      let hunk_id := match st.current_file with
        | some f => HunkId.new f.id f.hunks.length
        | none => HunkId.new (FileId.from_string "unknown") 0
      let hb : HunkBuilder :=
        { id := hunk_id, header := line, old_range := ranges.1,
          new_range := ranges.2, lines := [] }
      .ok { st with current_hunk := some hb }
  else
    match st.current_hunk with
    | some hunk =>
      match parse_line line st.current_file hunk with
      | some line_data =>
        let hb : HunkBuilder := { hunk with lines := hunk.lines ++ [line_data] }
        .ok { st with current_hunk := some hb }
      | none => .ok st
    | none => .ok st

/-- The `parse` loop over the input's lines. -/
def runLines (st : ParseState) : List String → Except RunErr ParseState
  | [] => .ok st
  | l :: ls =>
    match processLine st l with
    | .error e => .error e
    | .ok st' => runLines st' ls

/-- `DiffParser::parse` (`parser.rs:46-138`). -/
def DiffParser.parse (input : String) : Except RunErr DiffData :=
  match runLines ⟨[], none, none⟩ (strLines input) with
  | .error e => .error e
  | .ok st =>
    let st := saveFile (saveHunk st)
    .ok { files := st.files, stats := DiffStats.from_diff st.files }

/-! ### Line classification for the parse error characterization

Whether a line makes the parse loop fail is a property of the line alone:
only `diff --git ` headers and `@@ ` hunk headers can produce an
`InvalidDiff` error, and only a `diff --git ` header whose third/fourth
tokens carry neither an `a/` nor a `b/` path can panic; body lines are
never rejected. -/

inductive LineClass where
  | ok
  | invalid
  | panic
deriving DecidableEq, Repr

/-- Classify a single input line by the outcome of its processing. -/
def classifyLine (line : String) : LineClass :=
  if strStarts line "diff --git " then
    match parse_diff_header line with
    | .error _ => .invalid
    | .ok paths =>
      match paths.2.or paths.1 with
      | none => .panic
      | some _ => .ok
  else if strStarts line "@@ " then
    match parse_hunk_header line with
    | .error _ => .invalid
    | .ok _ => .ok
  else .ok

/-- The first line of the input that does not classify as `ok`. -/
def firstNonOk (ls : List String) : Option String :=
  ls.find? (fun l => ¬ (classifyLine l = .ok))

/-! ## Diff navigator (`src/crates/cr-core/src/diff/navigator.rs`)

The Rust methods mutate `&mut self` and return `bool`; they are modelled as
functions `DiffNavigator → Bool × DiffNavigator`. -/

/-- `Position`. -/
structure Position where
  file_idx : Nat
  hunk_idx : Nat
  line_idx : Nat
deriving DecidableEq, Repr

/-- `Position::new` (all zeros). -/
def Position.start : Position := ⟨0, 0, 0⟩

/-- `DiffNavigator`. -/
structure DiffNavigator where
  diff : DiffData
  position : Position
deriving DecidableEq, Repr

namespace DiffNavigator

/-- `DiffNavigator::new`. -/
def new (diff : DiffData) : DiffNavigator := ⟨diff, Position.start⟩

/-- `DiffNavigator::current_file`. -/
def current_file (nav : DiffNavigator) : Option FileDiff :=
  nav.diff.files[nav.position.file_idx]?

/-- `DiffNavigator::current_hunk`. -/
def current_hunk (nav : DiffNavigator) : Option Hunk :=
  nav.current_file.bind (fun f => f.hunks[nav.position.hunk_idx]?)

/-- `DiffNavigator::current_line`. -/
def current_line (nav : DiffNavigator) : Option Line :=
  nav.current_hunk.bind (fun h => h.lines[nav.position.line_idx]?)

/-- `DiffNavigator::next_file` (`navigator.rs:123-131`). -/
def next_file (nav : DiffNavigator) : Bool × DiffNavigator :=
  if nav.position.file_idx + 1 < nav.diff.files.length then
    (true, { nav with position :=
      { file_idx := nav.position.file_idx + 1, hunk_idx := 0, line_idx := 0 } })
  else (false, nav)

/-- `DiffNavigator::prev_file` (`navigator.rs:134-142`). -/
def prev_file (nav : DiffNavigator) : Bool × DiffNavigator :=
  if nav.position.file_idx > 0 then
    (true, { nav with position :=
      { file_idx := nav.position.file_idx - 1, hunk_idx := 0, line_idx := 0 } })
  else (false, nav)

/-- `DiffNavigator::next_hunk` (`navigator.rs:84-99`). -/
def next_hunk (nav : DiffNavigator) : Bool × DiffNavigator :=
  let fallthrough :=
    let r := nav.next_file
    if r.1 then
      (true, { r.2 with position := { r.2.position with hunk_idx := 0, line_idx := 0 } })
    else (false, r.2)
  match nav.current_file with
  | some file =>
    if nav.position.hunk_idx + 1 < file.hunks.length then
      (true, { nav with position :=
        { nav.position with hunk_idx := nav.position.hunk_idx + 1, line_idx := 0 } })
    else fallthrough
  | none => fallthrough

/-- `DiffNavigator::prev_hunk` (`navigator.rs:102-120`). -/
def prev_hunk (nav : DiffNavigator) : Bool × DiffNavigator :=
  if nav.position.hunk_idx > 0 then
    (true, { nav with position :=
      { nav.position with hunk_idx := nav.position.hunk_idx - 1, line_idx := 0 } })
  else
    let old_file := nav.position.file_idx
    let r := nav.prev_file
    if r.1 then
      let nav' := match r.2.current_file with
        | some file =>
          { r.2 with position :=
            { r.2.position with hunk_idx := file.hunks.length - 1 } }
        | none => r.2
      (true, { nav' with position := { nav'.position with line_idx := 0 } })
    else
      (false, { r.2 with position := { r.2.position with file_idx := old_file } })

/-- `DiffNavigator::next_line` (`navigator.rs:49-62`). -/
def next_line (nav : DiffNavigator) : Bool × DiffNavigator :=
  let intra : Option (Bool × DiffNavigator) :=
    match nav.current_hunk with
    | some hunk =>
      if nav.position.line_idx + 1 < hunk.lines.length then
        some (true, { nav with position :=
          { nav.position with line_idx := nav.position.line_idx + 1 } })
      else none
    | none => none
  match intra with
  | some r => r
  | none =>
    let r := nav.next_hunk
    if r.1 then
      (true, { r.2 with position := { r.2.position with line_idx := 0 } })
    else (false, r.2)

/-- `DiffNavigator::prev_line` (`navigator.rs:65-81`). -/
def prev_line (nav : DiffNavigator) : Bool × DiffNavigator :=
  if nav.position.line_idx > 0 then
    (true, { nav with position :=
      { nav.position with line_idx := nav.position.line_idx - 1 } })
  else
    let old_hunk := nav.position.hunk_idx
    let r := nav.prev_hunk
    if r.1 then
      let nav' := match r.2.current_hunk with
        | some hunk =>
          { r.2 with position :=
            { r.2.position with line_idx := hunk.lines.length - 1 } }
        | none => r.2
      (true, nav')
    else
      (false, { r.2 with position := { r.2.position with hunk_idx := old_hunk } })

/-- `DiffNavigator::goto_file` (`navigator.rs:145-153`). -/
def goto_file (nav : DiffNavigator) (file_idx : Nat) : Bool × DiffNavigator :=
  if file_idx < nav.diff.files.length then
    (true, { nav with position := { file_idx := file_idx, hunk_idx := 0, line_idx := 0 } })
  else (false, nav)

end DiffNavigator

/-- The hunk scan inside `goto_line`: walk the hunks accumulating line
counts until the flattened offset falls inside one. -/
def scanHunks : List Hunk → Nat → Nat → Nat → Option (Nat × Nat)
  | [], _, _, _ => none
  | h :: rest, hunk_idx, current_line, global_line_idx =>
    if current_line + h.lines.length > global_line_idx then
      some (hunk_idx, global_line_idx - current_line)
    else
      scanHunks rest (hunk_idx + 1) (current_line + h.lines.length) global_line_idx

/-- `DiffNavigator::goto_line` (`navigator.rs:156-174`). -/
def DiffNavigator.goto_line (nav : DiffNavigator) (file_idx global_line_idx : Nat) :
    Bool × DiffNavigator :=
  let r := nav.goto_file file_idx
  if !r.1 then (false, r.2)
  else
    match r.2.diff.files[file_idx]? with
    | none => (false, r.2)  -- unreachable: goto_file succeeded, so the index is in range
    | some file =>
      match scanHunks file.hunks 0 0 global_line_idx with
      | some hl =>
        (true, { r.2 with position :=
          { file_idx := file_idx, hunk_idx := hl.1, line_idx := hl.2 } })
      | none => (false, r.2)

/-- The file loop of `global_line_index` (`navigator.rs:244-264`): files
before the cursor contribute all their lines; the cursor's file hands over
to the hunk loop, which stops (`break`) at the cursor's hunk. -/
def gliHunks (pos : Position) : List Hunk → Nat → Nat
  | [], _ => 0
  | h :: rest, hunk_idx =>
    if hunk_idx < pos.hunk_idx then h.lines.length + gliHunks pos rest (hunk_idx + 1)
    else if hunk_idx = pos.hunk_idx then pos.line_idx
    else gliHunks pos rest (hunk_idx + 1)

/-- The outer loop of `global_line_index`. -/
def gliFiles (pos : Position) : List FileDiff → Nat → Nat
  | [], _ => 0
  | f :: rest, file_idx =>
    if file_idx < pos.file_idx then f.total_lines + gliFiles pos rest (file_idx + 1)
    else if file_idx = pos.file_idx then gliHunks pos f.hunks 0
    else gliFiles pos rest (file_idx + 1)

/-- `DiffNavigator::global_line_index`. -/
def DiffNavigator.global_line_index (nav : DiffNavigator) : Nat :=
  gliFiles nav.position nav.diff.files 0

/-- A two-line added-file fixture for concrete navigator tests. -/
def navLine (n : Nat) : Line :=
  { id := "l" ++ toString n, lineType := .added, content := "x",
    old_line_num := none, new_line_num := some n }

/-- One hunk with two lines. -/
def navHunk : Hunk :=
  { id := "h0", header := "@@ -0,0 +1,2 @@", old_range := ⟨0, 0⟩,
    new_range := ⟨1, 2⟩, lines := [navLine 1, navLine 2] }

/-- One file with a single two-line hunk. -/
def navFile : FileDiff :=
  { id := "f0", old_path := none, new_path := some "f0", mode := .added,
    hunks := [navHunk], lazy := false }

/-- A diff with two files of one two-line hunk each. -/
def navDiff2 : DiffData :=
  { files := [navFile, navFile], stats := ⟨2, 4, 0⟩ }

/-- A diff with a single file. -/
def navDiff1 : DiffData :=
  { files := [navFile], stats := ⟨1, 2, 0⟩ }

/-! ## Comment model (`src/crates/cr-core/src/comment/model.rs`)

Timestamps are modelled as `Nat` clock readings supplied explicitly to the
mutating operations (Rust calls `Utc::now()` internally); the presentational
`CommentMetadata` and the `extensions` map are not inspected by any claim
and are omitted. -/

/-- `DiffSide`. -/
inductive DiffSide where
  | old
  | new
deriving DecidableEq, Repr

/-- `Severity`. -/
inductive Severity where
  | info
  | warning
  | critical
deriving DecidableEq, Repr

/-- `CommentState`. -/
inductive CommentState where
  | Open
  | Acknowledged
  | Resolved
  | Dismissed
  | Outdated
deriving DecidableEq, Repr

/-- `LineReference`. -/
inductive LineReference where
  | singleLine (file_id : String) (line_id : String) (side : DiffSide)
  | range (file_id : String) (start_line_id end_line_id : String) (side : DiffSide)
deriving DecidableEq, Repr

/-- `Comment`. -/
structure Comment where
  id : String
  line_ref : LineReference
  content : String
  severity : Severity
  tags : List String
  created_at : Nat
  updated_at : Nat
  state : CommentState
deriving DecidableEq, Repr

/-- `Comment::file_id`. -/
def Comment.file_id (c : Comment) : String :=
  match c.line_ref with
  | .singleLine file_id _ _ => file_id
  | .range file_id _ _ _ => file_id

/-- `Comment::line_ids`. -/
def Comment.line_ids (c : Comment) : List String :=
  match c.line_ref with
  | .singleLine _ line_id _ => [line_id]
  | .range _ start_line_id end_line_id _ => [start_line_id, end_line_id]

/-- `Comment::update_content` (refreshes `updated_at`). -/
def Comment.update_content (c : Comment) (content : String) (now : Nat) : Comment :=
  { c with content := content, updated_at := now }

/-- `Comment::set_state` (refreshes `updated_at`). -/
def Comment.set_state (c : Comment) (state : CommentState) (now : Nat) : Comment :=
  { c with state := state, updated_at := now }

/-! ## Association-list model of `HashMap`

Keys are unique by construction of the operations below; lookups find the
first (hence only) entry. -/

/-- `HashMap::get`. -/
def listGet {α β : Type} [DecidableEq α] : List (α × β) → α → Option β
  | [], _ => none
  | (k', v) :: rest, k => if k' = k then some v else listGet rest k

/-- `map.entry(k).or_default().push(v)`: append `v` to the bucket of `k`,
creating the bucket when absent. -/
def entryPush {α : Type} [DecidableEq α] :
    List (α × List String) → α → String → List (α × List String)
  | [], k, v => [(k, [v])]
  | (k', vs) :: rest, k, v =>
    if k' = k then (k', vs ++ [v]) :: rest
    else (k', vs) :: entryPush rest k v

/-- `CommentIndex::remove`'s per-map step: `retain(|id| id != v)` on the
bucket of `k`, removing the bucket entirely when it becomes empty. -/
def bucketRemove {α : Type} [DecidableEq α] :
    List (α × List String) → α → String → List (α × List String)
  | [], _, _ => []
  | (k', vs) :: rest, k, v =>
    if k' = k then
      let vs' := vs.filter (fun x => x ≠ v)
      if vs'.isEmpty then rest else (k', vs') :: rest
    else (k', vs) :: bucketRemove rest k v

/-- `HashMap::insert` (replace or append). -/
def mapInsert : List (String × Comment) → String → Comment → List (String × Comment)
  | [], k, v => [(k, v)]
  | (k', v') :: rest, k, v =>
    if k' = k then (k, v) :: rest else (k', v') :: mapInsert rest k v

/-- `HashMap::remove`: the removed value (if any) and the remaining map. -/
def mapRemove : List (String × Comment) → String → Option Comment × List (String × Comment)
  | [], _ => (none, [])
  | (k', v) :: rest, k =>
    if k' = k then (some v, rest)
    else
      let r := mapRemove rest k
      (r.1, (k', v) :: r.2)

/-- `HashMap::get_mut` followed by an in-place mutation. -/
def mapSet : List (String × Comment) → String → (Comment → Comment) → List (String × Comment)
  | [], _, _ => []
  | (k', v) :: rest, k, f =>
    if k' = k then (k', f v) :: rest else (k', v) :: mapSet rest k f

/-! ## Comment index (`src/crates/cr-core/src/comment/index.rs`) -/

/-- `CommentIndex`. -/
structure CommentIndex where
  by_line : List (String × List String)
  by_file : List (String × List String)
  by_severity : List (Severity × List String)
deriving DecidableEq, Repr

/-- `CommentIndex::new`. -/
def CommentIndex.new : CommentIndex := ⟨[], [], []⟩

/-- `CommentIndex::add` (`index.rs:25-45`). -/
def CommentIndex.add (idx : CommentIndex) (c : Comment) : CommentIndex :=
  { by_line := c.line_ids.foldl (fun m line_id => entryPush m line_id c.id) idx.by_line
    by_file := entryPush idx.by_file c.file_id c.id
    by_severity := entryPush idx.by_severity c.severity c.id }

/-- `CommentIndex::remove` (`index.rs:48-74`). -/
def CommentIndex.remove (idx : CommentIndex) (c : Comment) : CommentIndex :=
  { by_line := c.line_ids.foldl (fun m line_id => bucketRemove m line_id c.id) idx.by_line
    by_file := bucketRemove idx.by_file c.file_id c.id
    by_severity := bucketRemove idx.by_severity c.severity c.id }

/-- `CommentIndex::get_by_line`. -/
def CommentIndex.get_by_line (idx : CommentIndex) (line_id : String) : List String :=
  (listGet idx.by_line line_id).getD []

/-- `CommentIndex::get_by_file`. -/
def CommentIndex.get_by_file (idx : CommentIndex) (file_id : String) : List String :=
  (listGet idx.by_file file_id).getD []

/-- `CommentIndex::get_by_severity`. -/
def CommentIndex.get_by_severity (idx : CommentIndex) (severity : Severity) : List String :=
  (listGet idx.by_severity severity).getD []

/-! ## Comment manager (`src/crates/cr-core/src/comment/manager.rs`)

The mutating Rust methods take `&mut self` and return `Result`; they are
modelled as functions returning the result paired with the (possibly
updated) manager. The bulk `delete_by_file`, `search` and the accessors
not mentioned by any claim are omitted. -/

/-- `CommentManager`. -/
structure CommentManager where
  comments : List (String × Comment)
  index : CommentIndex
deriving DecidableEq, Repr

/-- `CommentManager::new`. -/
def CommentManager.new : CommentManager := ⟨[], CommentIndex.new⟩

/-- `CommentManager::add` (`manager.rs:30-43`). -/
def CommentManager.add (m : CommentManager) (c : Comment) :
    Except CrHelperError String × CommentManager :=
  if (listGet m.comments c.id).isSome then
    (.error (.validation ("Comment with ID " ++ c.id ++ " already exists")), m)
  else
    (.ok c.id, { comments := mapInsert m.comments c.id c, index := m.index.add c })

/-- `CommentManager::update` (`manager.rs:56-63`). -/
def CommentManager.update (m : CommentManager) (id : String) (content : String)
    (now : Nat) : Except CrHelperError Unit × CommentManager :=
  match listGet m.comments id with
  | none => (.error (.commentNotFound id), m)
  | some _ =>
    (.ok (), { m with comments := mapSet m.comments id (fun c => c.update_content content now) })

/-- `CommentManager::update_state` (`manager.rs:66-73`). -/
def CommentManager.update_state (m : CommentManager) (id : String)
    (state : CommentState) (now : Nat) : Except CrHelperError Unit × CommentManager :=
  match listGet m.comments id with
  | none => (.error (.commentNotFound id), m)
  | some _ =>
    (.ok (), { m with comments := mapSet m.comments id (fun c => c.set_state state now) })

/-- `CommentManager::delete` (`manager.rs:76-83`). -/
def CommentManager.delete (m : CommentManager) (id : String) :
    Except CrHelperError Comment × CommentManager :=
  let r := mapRemove m.comments id
  match r.1 with
  | none => (.error (.commentNotFound id), m)
  | some c => (.ok c, { comments := r.2, index := m.index.remove c })

/-- `CommentManager::get_by_line` (ids resolved through the authoritative
map). -/
def CommentManager.get_by_line (m : CommentManager) (line_id : String) : List Comment :=
  (m.index.get_by_line line_id).filterMap (fun id => listGet m.comments id)

/-- Managers reachable through the constructor and the CRUD operations the
claims quantify over. -/
inductive MReach : CommentManager → Prop
  | new : MReach CommentManager.new
  | add {m : CommentManager} {c : Comment} : MReach m → MReach (m.add c).2
  | update {m : CommentManager} {id content : String} {now : Nat} :
      MReach m → MReach (m.update id content now).2
  | update_state {m : CommentManager} {id : String} {st : CommentState} {now : Nat} :
      MReach m → MReach (m.update_state id st now).2
  | delete {m : CommentManager} {id : String} : MReach m → MReach (m.delete id).2

/-- The cross-structure consistency invariant of a `CommentManager`: all
map keys are unique, every index bucket is nonempty, and every id in a
bucket belongs to a stored comment whose own keys include that bucket's
key. -/
def ManagerInv (m : CommentManager) : Prop :=
  (m.comments.map Prod.fst).Nodup
  ∧ (∀ k c, listGet m.comments k = some c → c.id = k)
  ∧ (m.index.by_line.map Prod.fst).Nodup
  ∧ (m.index.by_file.map Prod.fst).Nodup
  ∧ (m.index.by_severity.map Prod.fst).Nodup
  ∧ (∀ k vs, listGet m.index.by_line k = some vs →
      vs ≠ [] ∧ ∀ id ∈ vs, ∃ c, listGet m.comments id = some c ∧ k ∈ c.line_ids)
  ∧ (∀ k vs, listGet m.index.by_file k = some vs →
      vs ≠ [] ∧ ∀ id ∈ vs, ∃ c, listGet m.comments id = some c ∧ k = c.file_id)
  ∧ (∀ k vs, listGet m.index.by_severity k = some vs →
      vs ≠ [] ∧ ∀ id ∈ vs, ∃ c, listGet m.comments id = some c ∧ k = c.severity)

/-- A concrete comment for the index-consistency witness. -/
def cW : Comment :=
  { id := "c1", line_ref := .singleLine "f1" "l1" .new, content := "hi",
    severity := .warning, tags := [], created_at := 0, updated_at := 0, state := .Open }

/-- The manager holding exactly `cW`. -/
def mW1 : CommentManager := (CommentManager.new.add cW).2

/-! ## Lazy file loading (`DiffParser::load_lazy_file`, `parser.rs:229-297`)

The file system is modelled as three total functions (existence, size and
text-readability of a path); `fs::metadata` on a path that just passed
`is_file` is modelled as succeeding. The Rust method returns
`Result<()>` mutating the file in place; here it returns the updated file,
and the `display_path` `unwrap` (which panics when both paths are absent)
is modelled by `none`. -/

/-- A fixed snapshot of file-system contents. -/
structure FileSys where
  is_file : String → Bool
  size : String → Nat
  read_to_string : String → Option String

/-- `DiffParser::load_lazy_file`. -/
def DiffParser.load_lazy_file (cfg : ParserConfig) (fs : FileSys) (file : FileDiff) :
    Option FileDiff :=
  if ¬ file.needs_loading then some file
  else
    match file.new_path.or file.old_path with
    | none => none
    | some path =>
      if ¬ fs.is_file path then some { file with lazy := false }
      else
        let max_size := cfg.max_file_size.getD (10 * 1024 * 1024)
        if fs.size path > max_size then
          some { file with mode := .binary, lazy := false }
        else
          match fs.read_to_string path with
          | none => some { file with mode := .binary, lazy := false }
          | some content =>
            if content.data = [] then some { file with lazy := false }
            else
              let lines := strLines content
              let line_count := lines.length
              let hunk_lines := lines.enum.map (fun p =>
                { id := LineId.from_content path p.2 (p.1 + 1)
                  lineType := LineType.added
                  content := p.2
                  old_line_num := none
                  new_line_num := some (p.1 + 1) : Line })
              let hunk : Hunk :=
                { id := HunkId.new file.id 0
                  header := "@@ -0,0 +1," ++ toString line_count ++ " @@"
                  old_range := ⟨0, 0⟩
                  new_range := ⟨1, line_count⟩
                  lines := hunk_lines }
              some { file with hunks := [hunk], lazy := false }

/-- A concrete file system for the lazy-load witness. -/
def lazyFsW : FileSys :=
  { is_file := fun _ => true, size := fun _ => 4, read_to_string := fun _ => some "a\nb\n" }

/-- A fresh lazy file entry for the witness. -/
def lazyFileW : FileDiff := FileDiff.lazy_new "f.txt"

/-- The result of the first lazy load of `lazyFileW`. -/
def lazyLoadedW : FileDiff :=
  (DiffParser.load_lazy_file ⟨true, some 100⟩ lazyFsW lazyFileW).getD lazyFileW

/-! ## Session model (`src/crates/cr-core/src/session/model.rs`) -/

/-- `DiffSource` from the session model (`session/model.rs:86-120`). -/
inductive SessionDiffSource where
  | workingTree
  | staged
  | commit (commit : String)
  | commitRange (src dst : String)
  | branch (branch : String)
  | pullRequest (number : Nat) (base : String)
  | custom (args : List String)
deriving DecidableEq, Repr

/-- `DiffSource::to_git_args` from the session model
(`session/model.rs:125-135`). -/
def SessionDiffSource.to_git_args : SessionDiffSource → List String
  | .workingTree => []
  | .staged => ["--cached"]
  | .commit c => [c ++ "^.." ++ c]
  | .commitRange f t => [f ++ ".." ++ t]
  | .branch b => [b]
  | .pullRequest _ base => [base ++ "..HEAD"]
  | .custom args => args

/-! ## Schema migration (`src/crates/cr-core/src/session/migration.rs`)

The `Session` payload inside the envelope is never inspected by the
migrator; it is modelled as the session's id (`SessionFile` is generic in
Rust only in the sense that `migrate` is payload-agnostic). -/

/-- The session-file envelope: schema version plus the (opaque to the
migrator) session payload. -/
structure SessionFile where
  schema_version : String
  session_id : String
deriving DecidableEq, Repr

/-- `SessionFile::parse_version` (`migration.rs:40-48`): split on `.`,
require exactly two parts, both parsing as `u32`. -/
def SessionFile.parse_version (f : SessionFile) : Option ProtocolVersion :=
  let parts := strSplit f.schema_version '.'
  if parts.length ≠ 2 then none
  else
    match parseU32 (parts.getD 0 ""), parseU32 (parts.getD 1 "") with
    | some major, some minor => some ⟨major, minor⟩
    | _, _ => none

/-- `SessionMigrator::migrate` (`migration.rs:56-77`). -/
def SessionMigrator.migrate (file : SessionFile) : Except CrHelperError SessionFile :=
  match file.parse_version with
  | none => .error (.validation "Invalid schema version format")
  | some version =>
    if ¬ (version.is_compatible ProtocolVersion.v1_0) then
      .error (.validation ("Incompatible schema version: " ++ file.schema_version
        ++ " (expected " ++ toString ProtocolVersion.v1_0.major ++ ".x)"))
    else
      .ok file

/-! ## Line-number specification (for claim C1) -/

instance : Inhabited Line :=
  ⟨{ id := "", lineType := .context, content := "",
     old_line_num := none, new_line_num := none }⟩

/-- Number of Deleted-or-Context lines (old-side lines) in a list. -/
def countOldSide (ls : List Line) : Nat :=
  (ls.filter (fun l => l.lineType = .deleted ∨ l.lineType = .context)).length

/-- Number of Added-or-Context lines (new-side lines) in a list. -/
def countNewSide (ls : List Line) : Nat :=
  (ls.filter (fun l => l.lineType = .added ∨ l.lineType = .context)).length

/-- The claim's line-number derivation property for a line list against
declared old/new ranges: the i-th line's numbers come from the range starts
plus running offsets over the earlier lines, and each line type carries
exactly the numbers the claim assigns it. -/
def numsOk (old_range new_range : Range) (ls : List Line) : Prop :=
  ∀ i, i < ls.length →
    (((ls.getD i default).lineType = .deleted ∨ (ls.getD i default).lineType = .context) →
      (ls.getD i default).old_line_num = some (old_range.start + countOldSide (ls.take i)))
    ∧ (((ls.getD i default).lineType = .added ∨ (ls.getD i default).lineType = .context) →
      (ls.getD i default).new_line_num = some (new_range.start + countNewSide (ls.take i)))
    ∧ ((ls.getD i default).lineType = .added → (ls.getD i default).old_line_num = none)
    ∧ ((ls.getD i default).lineType = .deleted → (ls.getD i default).new_line_num = none)
    ∧ ((ls.getD i default).lineType = .noNewline →
      (ls.getD i default).old_line_num = none ∧ (ls.getD i default).new_line_num = none)

/-- `numsOk` for a built hunk against its own ranges. -/
def hunkLineNumsOk (h : Hunk) : Prop :=
  numsOk h.old_range h.new_range h.lines

/-- Parser-loop invariant: every completed hunk and the in-progress hunk
satisfy the line-number property. -/
def stateOk (st : ParseState) : Prop :=
  (∀ f ∈ st.files, ∀ h ∈ f.hunks, hunkLineNumsOk h)
  ∧ (∀ fb, st.current_file = some fb → ∀ h ∈ fb.hunks, hunkLineNumsOk h)
  ∧ (∀ hb, st.current_hunk = some hb → numsOk hb.old_range hb.new_range hb.lines)

/-- Parser-loop invariant for claim C5: every completed file and the
in-progress file block carry at least one of old/new path. -/
def pathsOk (st : ParseState) : Prop :=
  (∀ f ∈ st.files, f.old_path.isSome = true ∨ f.new_path.isSome = true)
  ∧ (∀ fb, st.current_file = some fb →
      fb.old_path.isSome = true ∨ fb.new_path.isSome = true)

/-- The spec's §8 sample diff, used as a concrete witness input. -/
def sampleDiff : String :=
  "diff --git a/f.txt b/f.txt\n@@ -1,2 +1,3 @@\n line1\n-line2\n+line2_modified\n+line3\n"

/-- The parse of `sampleDiff` (a successful parse; see the witness
theorems). -/
def sampleParsed : DiffData :=
  ((DiffParser.parse sampleDiff).toOption).getD ⟨[], ⟨0, 0, 0⟩⟩

/-! ## Theorems: diff sources (C6) -/

/-- C6: the diff-model `DiffSource::Staged` maps to `["--staged"]` while the
session-model `DiffSource::Staged` maps to `["--cached"]`; the shared
variants of the two enums agree (WorkingTree: no args, Commit `c`:
`c^..c`, CommitRange: `from..to`, Branch: `b`, Custom: args verbatim), and
the session-model PullRequest gives `base..HEAD`. -/
theorem staged_flags_differ_shared_variants_agree :
    DiffSource.staged.to_git_args = ["--staged"]
    ∧ SessionDiffSource.staged.to_git_args = ["--cached"]
    ∧ DiffSource.workingTree.to_git_args = []
    ∧ SessionDiffSource.workingTree.to_git_args = []
    ∧ (∀ c : String, (DiffSource.commit c).to_git_args = [c ++ "^.." ++ c]
        ∧ (SessionDiffSource.commit c).to_git_args = [c ++ "^.." ++ c])
    ∧ (∀ f t : String, (DiffSource.commitRange f t).to_git_args = [f ++ ".." ++ t]
        ∧ (SessionDiffSource.commitRange f t).to_git_args = [f ++ ".." ++ t])
    ∧ (∀ b : String, (DiffSource.branch b).to_git_args = [b]
        ∧ (SessionDiffSource.branch b).to_git_args = [b])
    ∧ (∀ args : List String, (DiffSource.custom args).to_git_args = args
        ∧ (SessionDiffSource.custom args).to_git_args = args)
    ∧ (∀ (n : Nat) (base : String),
        (SessionDiffSource.pullRequest n base).to_git_args = [base ++ "..HEAD"]) :=
  ⟨rfl, rfl, rfl, rfl, fun _ => ⟨rfl, rfl⟩, fun _ _ => ⟨rfl, rfl⟩,
    fun _ => ⟨rfl, rfl⟩, fun _ => ⟨rfl, rfl⟩, fun _ _ => rfl⟩

/-! ## Theorems: session-id validation (C7) -/

/-- C7 counterexample: `"20241231120000-a"` has a timestamp part before the
first `-` that is exactly 14 ASCII digits, yet `SessionId::from_string`
rejects it (the validator additionally requires at least 23 bytes), so
"accepts iff the prefix is exactly 14 ASCII digits" is false. -/
theorem sessionId_fourteen_digit_but_rejected :
    (splitnTwo "20241231120000-a" '-').headD "" = "20241231120000"
    ∧ ("20241231120000".data.length = 14 ∧ "20241231120000".data.all Char.isDigit = true)
    ∧ SessionId.from_string "20241231120000-a" =
        .error (.validation "Invalid session ID format: 20241231120000-a") := by
  decide

/-- C7 amended: `SessionId::from_string` accepts a string iff it is at least
23 bytes long, splits into two pieces at the first `-` (i.e. contains a
`-`), and the part before the first `-` is exactly 14 ASCII digits; the
rejection is a Validation-class error. -/
theorem sessionId_accept_iff :
    ∀ s : String,
      (SessionId.from_string s = Except.ok s ↔
        (23 ≤ utf8Len s ∧ (splitnTwo s '-').length = 2
          ∧ ((splitnTwo s '-').headD "").data.length = 14
          ∧ ((splitnTwo s '-').headD "").data.all Char.isDigit = true))
      ∧ (SessionId.from_string s = Except.ok s
          ∨ SessionId.from_string s =
              .error (.validation ("Invalid session ID format: " ++ s))) := by
  intro s
  have hval : SessionId.validate s = true ↔
      (23 ≤ utf8Len s ∧ (splitnTwo s '-').length = 2
        ∧ ((splitnTwo s '-').headD "").data.length = 14
        ∧ ((splitnTwo s '-').headD "").data.all Char.isDigit = true) := by
    unfold SessionId.validate
    by_cases h23 : utf8Len s < 23
    · rw [if_pos h23]
      constructor
      · intro h; simp at h
      · rintro ⟨h, -⟩; exact absurd h (by omega)
    · rw [if_neg h23]
      by_cases hp : (splitnTwo s '-').length = 2
      · rw [if_neg (by simp [hp])]
        simp only [Bool.and_eq_true, decide_eq_true_eq]
        constructor
        · rintro ⟨h1, h2⟩; exact ⟨Nat.le_of_not_lt h23, hp, h1, h2⟩
        · rintro ⟨-, -, h1, h2⟩; exact ⟨h1, h2⟩
      · rw [if_pos (by simp [hp])]
        constructor
        · intro h; simp at h
        · rintro ⟨-, h, -⟩; exact absurd h hp
  constructor
  · unfold SessionId.from_string
    by_cases hv : SessionId.validate s = true
    · rw [if_pos hv]
      exact ⟨fun _ => hval.mp hv, fun _ => rfl⟩
    · rw [if_neg hv]
      constructor
      · intro h; simp at h
      · intro h; exact absurd (hval.mpr h) hv
  · unfold SessionId.from_string
    split
    · exact Or.inl rfl
    · exact Or.inr rfl

/-- C7 scenario check (witness for `sessionId_accept_iff`):
`"20241231120000-abcd1234"` validates, `"2024-abcd1234"` and `"invalid"`
are rejected with a Validation-class error. -/
theorem sessionId_accept_iff_witness :
    SessionId.from_string "20241231120000-abcd1234" = Except.ok "20241231120000-abcd1234"
    ∧ SessionId.from_string "2024-abcd1234" =
        .error (.validation "Invalid session ID format: 2024-abcd1234")
    ∧ SessionId.from_string "invalid" =
        .error (.validation "Invalid session ID format: invalid") := by
  refine ⟨(sessionId_accept_iff "20241231120000-abcd1234").1.mpr (by decide), ?_, ?_⟩
  · rcases (sessionId_accept_iff "2024-abcd1234").2 with h | h
    · exact absurd ((sessionId_accept_iff "2024-abcd1234").1.mp h) (by decide)
    · exact h
  · rcases (sessionId_accept_iff "invalid").2 with h | h
    · exact absurd ((sessionId_accept_iff "invalid").1.mp h) (by decide)
    · exact h

/-! ## Theorems: schema migration (C8) -/

/-- C8: `SessionMigrator::migrate` returns the file unchanged iff the schema
version string parses as `<major>.<minor>` with major = 1 (any minor); it
fails with a Validation-class error both when the version string does not
parse and when the major differs from 1. -/
theorem migrate_ok_iff_major_matches :
    ∀ f : SessionFile,
      (SessionMigrator.migrate f = Except.ok f ↔
        ∃ minor, f.parse_version = some ⟨1, minor⟩)
      ∧ (f.parse_version = none →
          SessionMigrator.migrate f = .error (.validation "Invalid schema version format"))
      ∧ (∀ v, f.parse_version = some v → v.major ≠ 1 →
          ∃ msg, SessionMigrator.migrate f = .error (.validation msg)) := by
  intro f
  refine ⟨?_, ?_, ?_⟩
  · constructor
    · intro h
      unfold SessionMigrator.migrate at h
      cases hv : f.parse_version with
      | none => rw [hv] at h; exact absurd h (by simp)
      | some v =>
        rw [hv] at h
        obtain ⟨vM, vm⟩ := v
        by_cases hM : vM = 1
        · subst hM
          first
            | exact ⟨vm, hv⟩
            | exact ⟨vm, rfl⟩
        · exact absurd h (by simp [ProtocolVersion.is_compatible, ProtocolVersion.v1_0, hM])
    · rintro ⟨minor, hv⟩
      unfold SessionMigrator.migrate
      rw [hv]
      simp [ProtocolVersion.is_compatible, ProtocolVersion.v1_0]
  · intro hv
    unfold SessionMigrator.migrate
    rw [hv]
  · intro v hv hmaj
    unfold SessionMigrator.migrate
    rw [hv]
    have hc : ¬ (v.is_compatible ProtocolVersion.v1_0 = true) := by
      simp [ProtocolVersion.is_compatible, ProtocolVersion.v1_0, hmaj]
    exact ⟨_, if_pos hc⟩

/-- Witness for `migrate_ok_iff_major_matches`: version `"1.7"` (higher
minor, same major) migrates unchanged; version `"x"` fails with the
format Validation error; version `"2.0"` fails with an incompatibility
Validation error. -/
theorem migrate_ok_iff_major_matches_witness :
    SessionMigrator.migrate ⟨"1.7", "s"⟩ = Except.ok ⟨"1.7", "s"⟩
    ∧ SessionMigrator.migrate ⟨"x", "s"⟩ =
        .error (.validation "Invalid schema version format")
    ∧ ∃ msg, SessionMigrator.migrate ⟨"2.0", "s"⟩ = .error (.validation msg) := by
  refine ⟨(migrate_ok_iff_major_matches ⟨"1.7", "s"⟩).1.mpr ⟨7, by decide⟩,
    (migrate_ok_iff_major_matches ⟨"x", "s"⟩).2.1 (by decide),
    (migrate_ok_iff_major_matches ⟨"2.0", "s"⟩).2.2 ⟨2, 0⟩ (by decide) (by decide)⟩

/-! ## Theorems: parser line numbers (C1) -/

theorem numsOk_nil (oldR newR : Range) : numsOk oldR newR [] := by
  intro i hi
  simp at hi

theorem numsOk_append {oldR newR : Range} {ls : List Line} {l : Line}
    (h : numsOk oldR newR ls)
    (h1 : (l.lineType = .deleted ∨ l.lineType = .context) →
      l.old_line_num = some (oldR.start + countOldSide ls))
    (h2 : (l.lineType = .added ∨ l.lineType = .context) →
      l.new_line_num = some (newR.start + countNewSide ls))
    (h3 : l.lineType = .added → l.old_line_num = none)
    (h4 : l.lineType = .deleted → l.new_line_num = none)
    (h5 : l.lineType = .noNewline → l.old_line_num = none ∧ l.new_line_num = none) :
    numsOk oldR newR (ls ++ [l]) := by
  intro i hi
  rw [List.length_append, List.length_singleton] at hi
  rcases Nat.lt_succ_iff_lt_or_eq.mp hi with hlt | heq
  · have hget : (ls ++ [l]).getD i default = ls.getD i default :=
      List.getD_append ls [l] default i hlt
    have htake : (ls ++ [l]).take i = ls.take i :=
      List.take_eq_left_iff.mpr (Or.inr (Nat.le_of_lt hlt))
    rw [hget, htake]
    exact h i hlt
  · subst heq
    have hget : (ls ++ [l]).getD ls.length default = l := by
      rw [List.getD_append_right ls [l] default ls.length (Nat.le_refl _)]
      simp
    have htake : (ls ++ [l]).take ls.length = ls := List.take_left ls [l]
    rw [hget, htake]
    exact ⟨h1, h2, h3, h4, h5⟩

theorem parse_line_numsOk {line : String} {cf : Option FileDiffBuilder}
    {hb : HunkBuilder} {ld : Line}
    (hok : numsOk hb.old_range hb.new_range hb.lines)
    (h : parse_line line cf hb = some ld) :
    numsOk hb.old_range hb.new_range (hb.lines ++ [ld]) := by
  unfold parse_line at h
  split at h
  · exact absurd h (by simp)
  · dsimp only at h
    split at h
    · exact absurd h (by simp)
    · rename_i lt content heq
      replace h := Option.some.inj h
      subst h
      split at heq
      case _ =>
        injection Option.some.inj heq with h1 h2
        cases h1
        refine numsOk_append hok ?_ ?_ ?_ ?_ ?_ <;>
          simp [calculate_line_nums, countOldSide, countNewSide]
      case _ =>
        split at heq
        case _ =>
          injection Option.some.inj heq with h1 h2
          cases h1
          refine numsOk_append hok ?_ ?_ ?_ ?_ ?_ <;>
            simp [calculate_line_nums, countOldSide, countNewSide]
        case _ =>
          split at heq
          case _ =>
            injection Option.some.inj heq with h1 h2
            cases h1
            refine numsOk_append hok ?_ ?_ ?_ ?_ ?_ <;>
              simp [calculate_line_nums, countOldSide, countNewSide]
          case _ =>
            split at heq
            case _ =>
              injection Option.some.inj heq with h1 h2
              cases h1
              refine numsOk_append hok ?_ ?_ ?_ ?_ ?_ <;>
                simp [calculate_line_nums, countOldSide, countNewSide]
            case _ => exact absurd heq (by simp)

theorem saveHunk_stateOk {st : ParseState} (h : stateOk st) : stateOk (saveHunk st) := by
  obtain ⟨hf, hcf, hch⟩ := h
  unfold saveHunk
  split
  · exact ⟨hf, hcf, hch⟩
  · rename_i hunk hhunk
    split
    · rename_i f hfile
      refine ⟨hf, ?_, ?_⟩
      · intro fb hfb h hh
        simp only [Option.some.injEq] at hfb
        subst hfb
        simp only [List.mem_append, List.mem_singleton] at hh
        rcases hh with hh | hh
        · exact hcf f hfile h hh
        · subst hh
          exact hch hunk hhunk
      · intro hb hhb
        simp at hhb
    · refine ⟨hf, ?_, ?_⟩
      · intro fb hfb
        exact hcf fb hfb
      · intro hb hhb
        simp at hhb

theorem saveFile_stateOk {st : ParseState} (h : stateOk st) : stateOk (saveFile st) := by
  obtain ⟨hf, hcf, hch⟩ := h
  unfold saveFile
  split
  · exact ⟨hf, hcf, hch⟩
  · rename_i f hfile
    refine ⟨?_, ?_, hch⟩
    · intro f' hf' h hh
      simp only [List.mem_append, List.mem_singleton] at hf'
      rcases hf' with hf' | hf'
      · exact hf f' hf' h hh
      · subst hf'
        exact hcf f hfile h hh
    · intro fb hfb
      simp at hfb

theorem setMode_stateOk {st : ParseState} {m : FileMode} (h : stateOk st) :
    stateOk (setMode st m) := by
  obtain ⟨hf, hcf, hch⟩ := h
  unfold setMode
  split
  · exact ⟨hf, hcf, hch⟩
  · rename_i f hfile
    refine ⟨hf, ?_, hch⟩
    intro fb hfb
    simp only [Option.some.injEq] at hfb
    subst hfb
    exact hcf f hfile

theorem saveHunk_hunk_none (st : ParseState) : (saveHunk st).current_hunk = none := by
  unfold saveHunk
  split
  · assumption
  · split <;> rfl

theorem saveFile_hunk_eq (st : ParseState) :
    (saveFile st).current_hunk = st.current_hunk := by
  unfold saveFile
  split <;> rfl

theorem processLine_stateOk {st st' : ParseState} {line : String}
    (h : stateOk st) (hp : processLine st line = .ok st') : stateOk st' := by
  unfold processLine at hp
  split at hp
  · -- diff --git header
    split at hp
    · exact absurd hp (by simp)
    · rename_i paths hdh
      split at hp
      · exact absurd hp (by simp)
      · rename_i fb hfb
        simp only [Except.ok.injEq] at hp
        subst hp
        have hsaved := saveFile_stateOk (saveHunk_stateOk h)
        obtain ⟨hf, hcf, hch⟩ := hsaved
        refine ⟨hf, ?_, ?_⟩
        · intro fb' hfb' hk hh
          simp only [Option.some.injEq] at hfb'
          subst hfb'
          have : fb.hunks = [] := by
            unfold FileDiffBuilder.new at hfb
            split at hfb
            · exact absurd hfb (by simp)
            · simp only [Except.ok.injEq] at hfb
              subst hfb
              rfl
          rw [this] at hh
          simp at hh
        · intro hb hhb
          have : (saveFile (saveHunk st)).current_hunk = none := by
            rw [saveFile_hunk_eq, saveHunk_hunk_none]
          simp only [this] at hhb
          cases hhb
  · split at hp
    · simp only [Except.ok.injEq] at hp; subst hp; exact setMode_stateOk h
    · split at hp
      · simp only [Except.ok.injEq] at hp; subst hp; exact setMode_stateOk h
      · split at hp
        · simp only [Except.ok.injEq] at hp; subst hp; exact setMode_stateOk h
        · split at hp
          · simp only [Except.ok.injEq] at hp; subst hp; exact setMode_stateOk h
          · split at hp
            · simp only [Except.ok.injEq] at hp; subst hp; exact setMode_stateOk h
            · split at hp
              · -- hunk header
                split at hp
                · exact absurd hp (by simp)
                · rename_i ranges hhh
                  simp only [Except.ok.injEq] at hp
                  subst hp
                  obtain ⟨hf, hcf, hch⟩ := saveHunk_stateOk h
                  refine ⟨hf, hcf, ?_⟩
                  intro hb hhb
                  simp only [Option.some.injEq] at hhb
                  subst hhb
                  exact numsOk_nil _ _
              · -- body line
                split at hp
                · rename_i hunk hhunk
                  split at hp
                  · rename_i ld hld
                    simp only [Except.ok.injEq] at hp
                    subst hp
                    obtain ⟨hf, hcf, hch⟩ := h
                    refine ⟨hf, hcf, ?_⟩
                    intro hb hhb
                    simp only [Option.some.injEq] at hhb
                    subst hhb
                    exact parse_line_numsOk (hch hunk hhunk) hld
                  · simp only [Except.ok.injEq] at hp; subst hp; exact h
                · simp only [Except.ok.injEq] at hp; subst hp; exact h

theorem runLines_stateOk {st st' : ParseState} {ls : List String}
    (h : stateOk st) (hr : runLines st ls = .ok st') : stateOk st' := by
  induction ls generalizing st with
  | nil =>
    unfold runLines at hr
    simp only [Except.ok.injEq] at hr
    subst hr
    exact h
  | cons l ls ih =>
    unfold runLines at hr
    split at hr
    · exact absurd hr (by simp)
    · rename_i st'' hst
      exact ih (processLine_stateOk h hst) hr

/-- C1: for every successful parse, every line of every hunk carries
exactly the claim's line numbers: Deleted/Context lines get
`old_range.start` plus the count of earlier Deleted-or-Context lines,
Added/Context lines get `new_range.start` plus the count of earlier
Added-or-Context lines, Added lines have no old number, Deleted lines no
new number, and NoNewline lines neither. -/
theorem parse_line_numbers_correct :
    ∀ (input : String) (d : DiffData), DiffParser.parse input = .ok d →
      ∀ f ∈ d.files, ∀ h ∈ f.hunks, hunkLineNumsOk h := by
  intro input d hparse f hfmem h hhmem
  unfold DiffParser.parse at hparse
  split at hparse
  · exact absurd hparse (by simp)
  · rename_i st hrun
    simp only [Except.ok.injEq] at hparse
    subst hparse
    have hinit : stateOk ⟨[], none, none⟩ := by
      refine ⟨?_, ?_, ?_⟩ <;> intro x hx <;> simp at hx
    have hst := saveFile_stateOk (saveHunk_stateOk (runLines_stateOk hinit hrun))
    exact hst.1 f hfmem h hhmem

/-- Witness for `parse_line_numbers_correct`: the spec's §8 sample diff
parses successfully and every hunk satisfies the line-number property. -/
theorem parse_line_numbers_correct_witness :
    DiffParser.parse sampleDiff = Except.ok sampleParsed
    ∧ (∀ f ∈ sampleParsed.files, ∀ h ∈ f.hunks, hunkLineNumsOk h) := by
  have hp : DiffParser.parse sampleDiff = Except.ok sampleParsed := by decide
  exact ⟨hp, parse_line_numbers_correct sampleDiff sampleParsed hp⟩

/-! ## Theorems: parse totality and error characterization (C5) -/

theorem strStarts_head {l p : String} {c : Char}
    (h : strStarts l p = true) (hc : p.data.head? = some c) :
    l.data.head? = some c := by
  unfold strStarts at h
  obtain ⟨t, ht⟩ := List.isPrefixOf_iff_prefix.mp h
  cases hd : p.data with
  | nil => rw [hd] at hc; cases hc
  | cons a as =>
    rw [hd] at hc ht
    rw [← ht]
    simpa using hc

theorem not_hunkHeader_of_head {l : String} {c : Char}
    (h1 : l.data.head? = some c) (hne : c ≠ '@') :
    ¬ strStarts l "@@ " = true := by
  intro hq
  have h2 := strStarts_head hq (show ("@@ " : String).data.head? = some '@' by rfl)
  rw [h1] at h2
  exact hne (Option.some.inj h2)

theorem classifyLine_ok_of_not_headers {l : String}
    (hd : ¬ strStarts l "diff --git " = true)
    (hq : ¬ strStarts l "@@ " = true) : classifyLine l = .ok := by
  unfold classifyLine
  rw [if_neg hd, if_neg hq]

theorem parse_diff_header_error_form {l : String} {e : RunErr}
    (h : parse_diff_header l = .error e) :
    e = .err (.invalidDiff ("Invalid diff header: " ++ l)) := by
  unfold parse_diff_header at h
  dsimp only at h
  split at h
  · simp only [Except.error.injEq] at h
    exact h.symm
  · exact absurd h (by simp)

theorem parse_range_error_form {s : String} {e : RunErr}
    (h : parse_range s = .error e) :
    e = .err (.invalidDiff ("Invalid range: " ++ s)) := by
  unfold parse_range at h
  dsimp only at h
  split at h
  · simp only [Except.error.injEq] at h
    exact h.symm
  · split at h
    · split at h
      · simp only [Except.error.injEq] at h
        exact h.symm
      · exact absurd h (by simp)
    · exact absurd h (by simp)

theorem parse_hunk_header_error_form {l : String} {e : RunErr}
    (h : parse_hunk_header l = .error e) :
    ∃ msg, e = .err (.invalidDiff msg) := by
  unfold parse_hunk_header at h
  dsimp only at h
  split at h
  · simp only [Except.error.injEq] at h
    exact ⟨_, h.symm⟩
  · split at h
    · rename_i e' he
      simp only [Except.error.injEq] at h
      subst h
      exact ⟨_, parse_range_error_form he⟩
    · split at h
      · rename_i e' he
        simp only [Except.error.injEq] at h
        subst h
        exact ⟨_, parse_range_error_form he⟩
      · exact absurd h (by simp)

theorem processLine_error_classify {st : ParseState} {l : String} {e : RunErr}
    (h : processLine st l = .error e) :
    (classifyLine l = .invalid ∧ ∃ msg, e = .err (.invalidDiff msg))
    ∨ (classifyLine l = .panic ∧ ∃ msg, e = .panicked msg) := by
  unfold processLine at h
  split at h
  · rename_i hd
    split at h
    · rename_i e' he
      simp only [Except.error.injEq] at h
      subst h
      left
      refine ⟨?_, ⟨_, parse_diff_header_error_form he⟩⟩
      unfold classifyLine
      rw [if_pos hd, he]
    · rename_i paths hdh
      split at h
      · rename_i e' he
        simp only [Except.error.injEq] at h
        subst h
        unfold FileDiffBuilder.new at he
        cases hor : paths.2.or paths.1 with
        | none =>
          rw [hor] at he
          simp only [Except.error.injEq] at he
          right
          refine ⟨?_, ⟨_, he.symm⟩⟩
          unfold classifyLine
          rw [if_pos hd]
          simp only [hdh, hor]
        | some p =>
          rw [hor] at he
          exact absurd he (by simp)
      · exact absurd h (by simp)
  · split at h
    · exact absurd h (by simp)
    · split at h
      · exact absurd h (by simp)
      · split at h
        · exact absurd h (by simp)
        · split at h
          · exact absurd h (by simp)
          · split at h
            · exact absurd h (by simp)
            · split at h
              · rename_i hd hB hn hdel hr hc hq
                split at h
                · rename_i e' he
                  simp only [Except.error.injEq] at h
                  subst h
                  left
                  refine ⟨?_, parse_hunk_header_error_form he⟩
                  unfold classifyLine
                  rw [if_neg hd, if_pos hq, he]
                · exact absurd h (by simp)
              · split at h
                · split at h
                  · exact absurd h (by simp)
                  · exact absurd h (by simp)
                · exact absurd h (by simp)

theorem classify_ok_of_processLine_ok {st st' : ParseState} {l : String}
    (h : processLine st l = .ok st') : classifyLine l = .ok := by
  unfold processLine at h
  split at h
  · rename_i hd
    split at h
    · exact absurd h (by simp)
    · rename_i paths hdh
      split at h
      · exact absurd h (by simp)
      · rename_i fb hfb
        unfold classifyLine
        rw [if_pos hd]
        unfold FileDiffBuilder.new at hfb
        cases hor : paths.2.or paths.1 with
        | none => rw [hor] at hfb; exact absurd hfb (by simp)
        | some p => simp only [hdh, hor]
  · rename_i hd
    split at h
    · rename_i hB
      exact classifyLine_ok_of_not_headers hd
        (not_hunkHeader_of_head (strStarts_head hB (by rfl)) (by decide))
    · split at h
      · rename_i hn
        exact classifyLine_ok_of_not_headers hd
          (not_hunkHeader_of_head (strStarts_head hn (by rfl)) (by decide))
      · split at h
        · rename_i hdel
          exact classifyLine_ok_of_not_headers hd
            (not_hunkHeader_of_head (strStarts_head hdel (by rfl)) (by decide))
        · split at h
          · rename_i hr
            rcases Bool.or_eq_true _ _ |>.mp hr with hr' | hr'
            · exact classifyLine_ok_of_not_headers hd
                (not_hunkHeader_of_head (strStarts_head hr' (by rfl)) (by decide))
            · exact classifyLine_ok_of_not_headers hd
                (not_hunkHeader_of_head (strStarts_head hr' (by rfl)) (by decide))
          · split at h
            · rename_i hcp
              rcases Bool.or_eq_true _ _ |>.mp hcp with hc' | hc'
              · exact classifyLine_ok_of_not_headers hd
                  (not_hunkHeader_of_head (strStarts_head hc' (by rfl)) (by decide))
              · exact classifyLine_ok_of_not_headers hd
                  (not_hunkHeader_of_head (strStarts_head hc' (by rfl)) (by decide))
            · split at h
              · rename_i hq
                split at h
                · exact absurd h (by simp)
                · rename_i ranges hhh
                  unfold classifyLine
                  rw [if_neg hd, if_pos hq, hhh]
              · rename_i hq
                exact classifyLine_ok_of_not_headers hd hq

theorem processLine_ok_of_classify {l : String} (hc : classifyLine l = .ok)
    (st : ParseState) : ∃ st', processLine st l = .ok st' := by
  cases hres : processLine st l with
  | ok st' => exact ⟨st', rfl⟩
  | error e =>
    rcases processLine_error_classify hres with ⟨hcl, -⟩ | ⟨hcl, -⟩ <;>
      exact absurd (hc.symm.trans hcl) (by simp)

theorem runLines_ok_of_all {ls : List String}
    (hall : ∀ l ∈ ls, classifyLine l = .ok) :
    ∀ st, ∃ st', runLines st ls = .ok st' := by
  induction ls with
  | nil => intro st; exact ⟨st, rfl⟩
  | cons l ls ih =>
    intro st
    obtain ⟨st₁, h1⟩ := processLine_ok_of_classify (hall l (by simp)) st
    obtain ⟨st₂, h2⟩ := ih (fun x hx => hall x (by simp [hx])) st₁
    refine ⟨st₂, ?_⟩
    unfold runLines
    rw [h1]
    exact h2

theorem runLines_classify_of_ok {ls : List String} {st st' : ParseState}
    (h : runLines st ls = .ok st') : ∀ l ∈ ls, classifyLine l = .ok := by
  induction ls generalizing st with
  | nil => intro l hl; simp at hl
  | cons l ls ih =>
    intro x hx
    unfold runLines at h
    split at h
    · exact absurd h (by simp)
    · rename_i st'' hst
      simp only [List.mem_cons] at hx
      rcases hx with rfl | hx
      · exact classify_ok_of_processLine_ok hst
      · exact ih h x hx

theorem runLines_error_characterize {ls : List String} {st : ParseState} {e : RunErr}
    (h : runLines st ls = .error e) :
    ∃ l, firstNonOk ls = some l
      ∧ ((classifyLine l = .invalid ∧ ∃ msg, e = .err (.invalidDiff msg))
        ∨ (classifyLine l = .panic ∧ ∃ msg, e = .panicked msg)) := by
  induction ls generalizing st with
  | nil =>
    unfold runLines at h
    exact absurd h (by simp)
  | cons l ls ih =>
    unfold runLines at h
    split at h
    · rename_i e' he
      simp only [Except.error.injEq] at h
      subst h
      have hcl := processLine_error_classify he
      have hne : classifyLine l ≠ .ok := by
        rcases hcl with ⟨hcl, -⟩ | ⟨hcl, -⟩ <;> simp [hcl]
      refine ⟨l, ?_, hcl⟩
      unfold firstNonOk
      rw [List.find?_cons_of_pos _ (by simpa using hne)]
    · rename_i st'' hst
      have hok := classify_ok_of_processLine_ok hst
      obtain ⟨l', hfind, hrest⟩ := ih h
      refine ⟨l', ?_, hrest⟩
      unfold firstNonOk at hfind ⊢
      rw [List.find?_cons_of_neg _ (by simp [hok])]
      exact hfind

theorem or_isSome {o p : Option String} {v : String} (h : o.or p = some v) :
    o.isSome = true ∨ p.isSome = true := by
  cases o with
  | some a => exact Or.inl rfl
  | none => cases p with
    | some b => exact Or.inr rfl
    | none => cases h

theorem saveHunk_pathsOk {st : ParseState} (h : pathsOk st) : pathsOk (saveHunk st) := by
  obtain ⟨hf, hcf⟩ := h
  unfold saveHunk
  split
  · exact ⟨hf, hcf⟩
  · split
    · rename_i f hfile
      refine ⟨hf, ?_⟩
      intro fb hfb
      simp only [Option.some.injEq] at hfb
      subst hfb
      exact hcf f hfile
    · exact ⟨hf, hcf⟩

theorem saveFile_pathsOk {st : ParseState} (h : pathsOk st) : pathsOk (saveFile st) := by
  obtain ⟨hf, hcf⟩ := h
  unfold saveFile
  split
  · exact ⟨hf, hcf⟩
  · rename_i f hfile
    refine ⟨?_, ?_⟩
    · intro f' hf'
      simp only [List.mem_append, List.mem_singleton] at hf'
      rcases hf' with hf' | hf'
      · exact hf f' hf'
      · subst hf'
        exact hcf f hfile
    · intro fb hfb
      simp at hfb

theorem setMode_pathsOk {st : ParseState} {m : FileMode} (h : pathsOk st) :
    pathsOk (setMode st m) := by
  obtain ⟨hf, hcf⟩ := h
  unfold setMode
  split
  · exact ⟨hf, hcf⟩
  · rename_i f hfile
    refine ⟨hf, ?_⟩
    intro fb hfb
    simp only [Option.some.injEq] at hfb
    subst hfb
    exact hcf f hfile

theorem processLine_pathsOk {st st' : ParseState} {line : String}
    (h : pathsOk st) (hp : processLine st line = .ok st') : pathsOk st' := by
  unfold processLine at hp
  split at hp
  · split at hp
    · exact absurd hp (by simp)
    · rename_i paths hdh
      split at hp
      · exact absurd hp (by simp)
      · rename_i fb hfb
        simp only [Except.ok.injEq] at hp
        subst hp
        obtain ⟨hf, hcf⟩ := saveFile_pathsOk (saveHunk_pathsOk h)
        refine ⟨hf, ?_⟩
        intro fb' hfb'
        simp only [Option.some.injEq] at hfb'
        subst hfb'
        unfold FileDiffBuilder.new at hfb
        cases hor : paths.2.or paths.1 with
        | none => rw [hor] at hfb; exact absurd hfb (by simp)
        | some p =>
          rw [hor] at hfb
          simp only [Except.ok.injEq] at hfb
          subst hfb
          exact (or_isSome hor).symm
  · split at hp
    · simp only [Except.ok.injEq] at hp; subst hp; exact setMode_pathsOk h
    · split at hp
      · simp only [Except.ok.injEq] at hp; subst hp; exact setMode_pathsOk h
      · split at hp
        · simp only [Except.ok.injEq] at hp; subst hp; exact setMode_pathsOk h
        · split at hp
          · simp only [Except.ok.injEq] at hp; subst hp; exact setMode_pathsOk h
          · split at hp
            · simp only [Except.ok.injEq] at hp; subst hp; exact setMode_pathsOk h
            · split at hp
              · split at hp
                · exact absurd hp (by simp)
                · rename_i ranges hhh
                  simp only [Except.ok.injEq] at hp
                  subst hp
                  obtain ⟨hf, hcf⟩ := saveHunk_pathsOk h
                  exact ⟨hf, hcf⟩
              · split at hp
                · split at hp
                  · simp only [Except.ok.injEq] at hp; subst hp; exact h
                  · simp only [Except.ok.injEq] at hp; subst hp; exact h
                · simp only [Except.ok.injEq] at hp; subst hp; exact h

theorem runLines_pathsOk {ls : List String} {st st' : ParseState}
    (h : pathsOk st) (hr : runLines st ls = .ok st') : pathsOk st' := by
  induction ls generalizing st with
  | nil =>
    unfold runLines at hr
    simp only [Except.ok.injEq] at hr
    subst hr
    exact h
  | cons l ls ih =>
    unfold runLines at hr
    split at hr
    · exact absurd hr (by simp)
    · rename_i st'' hst
      exact ih (processLine_pathsOk h hst) hr

/-- C5 counterexample: `"diff --git x y"` is a `diff --git` header with the
expected token count (4 space-separated tokens) and contains no numeric
range, so per the claim `parse` should return Ok; instead the path
`unwrap` inside the file builder aborts (a panic, not an `InvalidDiff`
error). -/
theorem parse_aborts_on_pathless_header :
    (strSplit "diff --git x y" ' ').length = 4
    ∧ DiffParser.parse "diff --git x y" =
        .error (.panicked "called Option::unwrap on a None value") := by
  decide

/-- C5 amended: `DiffParser::parse` succeeds iff every input line
classifies as ok, where the only offending lines are `diff --git ` headers
with fewer than 4 space-tokens, hunk headers that fail to decompose or
whose range tokens fail numeric parsing (each an `InvalidDiff` error), and
`diff --git ` headers whose 3rd/4th tokens carry neither an `a/` nor a
`b/` path, which abort (panic) instead of returning an error; on every
error the first offending line determines the outcome, and every parsed
`FileDiff` has at least one of old/new path present. -/
theorem parse_totality_characterized :
    ∀ input : String,
      ((∃ d, DiffParser.parse input = Except.ok d) ↔
        ∀ l ∈ strLines input, classifyLine l = .ok)
      ∧ (∀ e, DiffParser.parse input = .error e →
          ∃ l, firstNonOk (strLines input) = some l
            ∧ ((classifyLine l = .invalid ∧ ∃ msg, e = .err (.invalidDiff msg))
              ∨ (classifyLine l = .panic ∧ ∃ msg, e = .panicked msg)))
      ∧ (∀ d, DiffParser.parse input = Except.ok d →
          ∀ f ∈ d.files, f.old_path.isSome = true ∨ f.new_path.isSome = true) := by
  intro input
  refine ⟨⟨?_, ?_⟩, ?_, ?_⟩
  · rintro ⟨d, hd⟩
    unfold DiffParser.parse at hd
    split at hd
    · exact absurd hd (by simp)
    · rename_i st hrun
      exact runLines_classify_of_ok hrun
  · intro hall
    obtain ⟨st', hrun⟩ := runLines_ok_of_all hall ⟨[], none, none⟩
    exact ⟨{ files := (saveFile (saveHunk st')).files,
             stats := DiffStats.from_diff (saveFile (saveHunk st')).files },
      by unfold DiffParser.parse; rw [hrun]⟩
  · intro e he
    unfold DiffParser.parse at he
    split at he
    · rename_i e' hrun
      simp only [Except.error.injEq] at he
      subst he
      exact runLines_error_characterize hrun
    · exact absurd he (by simp)
  · intro d hd f hfmem
    unfold DiffParser.parse at hd
    split at hd
    · exact absurd hd (by simp)
    · rename_i st hrun
      simp only [Except.ok.injEq] at hd
      subst hd
      have hinit : pathsOk ⟨[], none, none⟩ := by
        refine ⟨?_, ?_⟩ <;> intro x hx <;> simp at hx
      have hst := saveFile_pathsOk (saveHunk_pathsOk (runLines_pathsOk hinit hrun))
      exact hst.1 f hfmem

/-- Witness for `parse_totality_characterized`: every line of the sample
diff classifies ok, so parsing succeeds, and all resulting files carry a
path. -/
theorem parse_totality_characterized_witness :
    (∃ d, DiffParser.parse sampleDiff = Except.ok d)
    ∧ (∀ f ∈ sampleParsed.files, f.old_path.isSome = true ∨ f.new_path.isSome = true) := by
  have h := parse_totality_characterized sampleDiff
  exact ⟨h.1.mpr (by decide), h.2.2 sampleParsed (by decide)⟩

/-! ## Theorems: navigator no-ops on failure (C3) -/

theorem next_file_noop (nav : DiffNavigator) :
    (nav.next_file).1 = false → (nav.next_file).2 = nav := by
  unfold DiffNavigator.next_file
  split
  · intro h; simp at h
  · intro _; rfl

theorem prev_file_noop (nav : DiffNavigator) :
    (nav.prev_file).1 = false → (nav.prev_file).2 = nav := by
  unfold DiffNavigator.prev_file
  split
  · intro h; simp at h
  · intro _; rfl

theorem next_hunk_noop (nav : DiffNavigator) :
    (nav.next_hunk).1 = false → (nav.next_hunk).2 = nav := by
  unfold DiffNavigator.next_hunk
  dsimp only
  split
  · split
    · intro h; simp at h
    · split
      · intro h; simp at h
      · rename_i hnf
        intro _
        exact next_file_noop nav (by simpa using hnf)
  · split
    · intro h; simp at h
    · rename_i hnf
      intro _
      exact next_file_noop nav (by simpa using hnf)

theorem prev_hunk_noop (nav : DiffNavigator) :
    (nav.prev_hunk).1 = false → (nav.prev_hunk).2 = nav := by
  unfold DiffNavigator.prev_hunk
  dsimp only
  split
  · intro h; simp at h
  · split
    · intro h; simp at h
    · rename_i hpf
      intro _
      have h2 : (nav.prev_file).2 = nav := prev_file_noop nav (by simpa using hpf)
      show ({ (nav.prev_file).2 with position :=
        { (nav.prev_file).2.position with file_idx := nav.position.file_idx } } : DiffNavigator) = nav
      rw [h2]

theorem next_line_noop (nav : DiffNavigator) :
    (nav.next_line).1 = false → (nav.next_line).2 = nav := by
  unfold DiffNavigator.next_line
  dsimp only
  split
  · rename_i r heq
    split at heq
    · split at heq
      · simp only [Option.some.injEq] at heq
        subst heq
        intro h; simp at h
      · exact absurd heq (by simp)
    · exact absurd heq (by simp)
  · split
    · intro h; simp at h
    · rename_i hnh
      intro _
      exact next_hunk_noop nav (by simpa using hnh)

theorem prev_line_noop (nav : DiffNavigator) :
    (nav.prev_line).1 = false → (nav.prev_line).2 = nav := by
  unfold DiffNavigator.prev_line
  dsimp only
  split
  · intro h; simp at h
  · split
    · intro h; simp at h
    · rename_i hph
      intro _
      have h2 : (nav.prev_hunk).2 = nav := prev_hunk_noop nav (by simpa using hph)
      show ({ (nav.prev_hunk).2 with position :=
        { (nav.prev_hunk).2.position with hunk_idx := nav.position.hunk_idx } } : DiffNavigator) = nav
      rw [h2]

theorem goto_file_noop (nav : DiffNavigator) (f : Nat) :
    (nav.goto_file f).1 = false → (nav.goto_file f).2 = nav := by
  unfold DiffNavigator.goto_file
  split
  · intro h; simp at h
  · intro _; rfl

/-- C3 counterexample: after one `next_line` on a one-file diff the cursor
is at `(0,0,1)`; `goto_line(0, 5)` then returns false but has reset the
cursor to `(0,0,0)` (its `goto_file` sub-call already moved it), so
"every movement returning false leaves the position unchanged" is false. -/
theorem goto_line_false_moves_cursor :
    (DiffNavigator.goto_line ⟨navDiff1, ⟨0, 0, 1⟩⟩ 0 5).1 = false
    ∧ (DiffNavigator.goto_line ⟨navDiff1, ⟨0, 0, 1⟩⟩ 0 5).2.position = ⟨0, 0, 0⟩
    ∧ ¬ ((DiffNavigator.goto_line ⟨navDiff1, ⟨0, 0, 1⟩⟩ 0 5).2.position = ⟨0, 0, 1⟩) := by
  decide

/-- C3 amended: `next_line`, `prev_line`, `next_hunk`, `prev_hunk`,
`next_file`, `prev_file` and `goto_file` leave the navigator exactly
unchanged whenever they return false (in particular `prev_line` at
`(0,0,0)` and `next_line` at the last line); `goto_line`, however, leaves
the navigator unchanged on false only when the file index is out of range —
when the file index is valid but the offset is past the file's lines it
returns false with the cursor moved to `(file_idx, 0, 0)`. -/
theorem movement_noop_on_false :
    ∀ (nav : DiffNavigator) (f k : Nat),
      ((nav.next_line).1 = false → (nav.next_line).2 = nav)
      ∧ ((nav.prev_line).1 = false → (nav.prev_line).2 = nav)
      ∧ ((nav.next_hunk).1 = false → (nav.next_hunk).2 = nav)
      ∧ ((nav.prev_hunk).1 = false → (nav.prev_hunk).2 = nav)
      ∧ ((nav.next_file).1 = false → (nav.next_file).2 = nav)
      ∧ ((nav.prev_file).1 = false → (nav.prev_file).2 = nav)
      ∧ ((nav.goto_file f).1 = false → (nav.goto_file f).2 = nav)
      ∧ ((nav.goto_line f k).1 = false →
          if f < nav.diff.files.length
          then (nav.goto_line f k).2.position = ⟨f, 0, 0⟩
          else (nav.goto_line f k).2 = nav) := by
  intro nav f k
  refine ⟨next_line_noop nav, prev_line_noop nav, next_hunk_noop nav,
    prev_hunk_noop nav, next_file_noop nav, prev_file_noop nav,
    goto_file_noop nav f, ?_⟩
  intro h
  by_cases hf : f < nav.diff.files.length
  · rw [if_pos hf]
    have hr : nav.goto_file f = (true, { nav with position := ⟨f, 0, 0⟩ }) := by
      unfold DiffNavigator.goto_file
      rw [if_pos hf]
    obtain ⟨file, hfile⟩ : ∃ file, nav.diff.files[f]? = some file := by
      rw [List.getElem?_eq_getElem hf]
      exact ⟨_, rfl⟩
    cases hscan : scanHunks file.hunks 0 0 k with
    | some hl =>
      have hgl : nav.goto_line f k = (true, { nav with position := ⟨f, hl.1, hl.2⟩ }) := by
        unfold DiffNavigator.goto_line
        rw [hr]
        simp [hfile, hscan]
      rw [hgl] at h
      simp at h
    | none =>
      have hgl : nav.goto_line f k = (false, { nav with position := ⟨f, 0, 0⟩ }) := by
        unfold DiffNavigator.goto_line
        rw [hr]
        simp [hfile, hscan]
      rw [hgl]
  · rw [if_neg hf]
    have hr : nav.goto_file f = (false, nav) := by
      unfold DiffNavigator.goto_file
      rw [if_neg hf]
    have hgl : nav.goto_line f k = (false, nav) := by
      unfold DiffNavigator.goto_line
      rw [hr]
      simp
    rw [hgl]

/-- Witness for `movement_noop_on_false`: `prev_line` from `(0,0,0)` and
`next_line` from the last line both return false and leave the navigator
unchanged; `goto_line` with an out-of-range file index is also a no-op. -/
theorem movement_noop_on_false_witness :
    ((DiffNavigator.new navDiff1).prev_line).1 = false
    ∧ ((DiffNavigator.new navDiff1).prev_line).2 = DiffNavigator.new navDiff1
    ∧ (DiffNavigator.next_line ⟨navDiff1, ⟨0, 0, 1⟩⟩).1 = false
    ∧ (DiffNavigator.next_line ⟨navDiff1, ⟨0, 0, 1⟩⟩).2 = ⟨navDiff1, ⟨0, 0, 1⟩⟩
    ∧ ((DiffNavigator.new navDiff1).goto_line 7 0).2 = DiffNavigator.new navDiff1 := by
  have h1 := (movement_noop_on_false (DiffNavigator.new navDiff1) 0 0).2.1
  have h2 := (movement_noop_on_false ⟨navDiff1, ⟨0, 0, 1⟩⟩ 0 0).1
  have h3 := (movement_noop_on_false (DiffNavigator.new navDiff1) 7 0).2.2.2.2.2.2.2
  refine ⟨by decide, h1 (by decide), by decide, h2 (by decide), ?_⟩
  have := h3 (by decide)
  rw [if_neg (by decide)] at this
  exact this

/-! ## Theorems: global line index vs goto_line (C2) -/

theorem gliHunks_eq (pos : Position) (hunks : List Hunk) :
    ∀ j, gliHunks pos hunks j =
      if j ≤ pos.hunk_idx then
        ((hunks.take (pos.hunk_idx - j)).map (fun h => h.lines.length)).sum
        + (if pos.hunk_idx - j < hunks.length then pos.line_idx else 0)
      else 0 := by
  induction hunks with
  | nil => intro j; simp [gliHunks]
  | cons h rest ih =>
    intro j
    unfold gliHunks
    by_cases h1 : j < pos.hunk_idx
    · rw [if_pos h1, ih (j + 1), if_pos (by omega : j + 1 ≤ pos.hunk_idx),
        if_pos (by omega : j ≤ pos.hunk_idx)]
      have hsub : pos.hunk_idx - j = (pos.hunk_idx - (j + 1)) + 1 := by omega
      rw [hsub]
      simp only [List.take_succ_cons, List.map_cons, List.sum_cons, List.length_cons]
      have hiff : pos.hunk_idx - (j + 1) + 1 < rest.length + 1
          ↔ pos.hunk_idx - (j + 1) < rest.length := by omega
      by_cases h2 : pos.hunk_idx - (j + 1) < rest.length
      · rw [if_pos h2, if_pos (hiff.mpr h2)]
        omega
      · rw [if_neg h2, if_neg (by omega)]
        omega
    · by_cases h2 : j = pos.hunk_idx
      · rw [if_neg (by omega), if_pos h2, if_pos (by omega : j ≤ pos.hunk_idx)]
        have : pos.hunk_idx - j = 0 := by omega
        rw [this]
        simp
      · rw [if_neg h1, if_neg h2, ih (j + 1), if_neg (by omega), if_neg (by omega)]

theorem gliFiles_eq (pos : Position) (files : List FileDiff) :
    ∀ j, gliFiles pos files j =
      if j ≤ pos.file_idx then
        ((files.take (pos.file_idx - j)).map FileDiff.total_lines).sum
        + (match files[pos.file_idx - j]? with
           | some f => gliHunks pos f.hunks 0
           | none => 0)
      else 0 := by
  induction files with
  | nil => intro j; simp [gliFiles]
  | cons f rest ih =>
    intro j
    unfold gliFiles
    by_cases h1 : j < pos.file_idx
    · rw [if_pos h1, ih (j + 1), if_pos (by omega : j + 1 ≤ pos.file_idx),
        if_pos (by omega : j ≤ pos.file_idx)]
      have hsub : pos.file_idx - j = (pos.file_idx - (j + 1)) + 1 := by omega
      rw [hsub]
      simp only [List.take_succ_cons, List.map_cons, List.sum_cons,
        List.getElem?_cons_succ]
      omega
    · by_cases h2 : j = pos.file_idx
      · rw [if_neg (by omega), if_pos h2, if_pos (by omega : j ≤ pos.file_idx)]
        have : pos.file_idx - j = 0 := by omega
        rw [this]
        simp
      · rw [if_neg h1, if_neg h2, ih (j + 1), if_neg (by omega), if_neg (by omega)]

theorem scanHunks_some {k : Nat} :
    ∀ (hunks : List Hunk) (hidx cur : Nat) (h li : Nat),
      cur ≤ k →
      scanHunks hunks hidx cur k = some (h, li) →
      hidx ≤ h ∧ h - hidx < hunks.length
      ∧ cur + ((hunks.take (h - hidx)).map (fun x => x.lines.length)).sum + li = k
      ∧ ∃ hk, hunks[h - hidx]? = some hk ∧ li < hk.lines.length := by
  intro hunks
  induction hunks with
  | nil => intro hidx cur h li _ hs; simp [scanHunks] at hs
  | cons hh rest ih =>
    intro hidx cur h li hcur hs
    unfold scanHunks at hs
    split at hs
    · rename_i hgt
      injection Option.some.inj hs with h1 h2
      subst h1
      subst h2
      refine ⟨Nat.le_refl _, by simp, ?_, ⟨hh, ?_, ?_⟩⟩
      · simp only [Nat.sub_self, List.take_zero, List.map_nil, List.sum_nil]
        omega
      · simp
      · omega
    · rename_i hng
      have hcur' : cur + hh.lines.length ≤ k := by omega
      obtain ⟨hle, hlt, hsum, hk, hget, hli⟩ := ih (hidx + 1) (cur + hh.lines.length) h li hcur' hs
      have hgt : hidx < h := by omega
      have hsub : h - hidx = (h - (hidx + 1)) + 1 := by omega
      refine ⟨by omega, ?_, ?_, ⟨hk, ?_, hli⟩⟩
      · simp only [List.length_cons]
        omega
      · rw [hsub]
        simp only [List.take_succ_cons, List.map_cons, List.sum_cons]
        omega
      · rw [hsub]
        simpa using hget

/-- C2 counterexample: on a two-file diff (each file: one hunk of two
lines), `goto_line(1, 0)` succeeds, but `global_line_index()` immediately
afterwards returns 2 (the first file's total), not the offset 0 that was
passed, so `global_line_index` is not the inverse of `goto_line`. -/
theorem global_line_index_not_inverse :
    ((DiffNavigator.new navDiff2).goto_line 1 0).1 = true
    ∧ ((DiffNavigator.new navDiff2).goto_line 1 0).2.global_line_index = 2
    ∧ ¬ (((DiffNavigator.new navDiff2).goto_line 1 0).2.global_line_index = 0) := by
  decide

/-- C2 amended: for every navigator state, `global_line_index()` equals
the sum of the full line counts of the files before the cursor's file,
plus the line counts of the hunks before the cursor's hunk within the
cursor's file, plus — only when the cursor's hunk index is in range — the
in-hunk line index (when the file or hunk index is out of range the
in-hunk offset is dropped); and when `goto_line(f, k)` returns true,
`global_line_index()` immediately afterwards returns the sum of the line
counts of the files before `f` plus `k` (the claim's `k` alone holds only
for `f = 0`). -/
theorem global_line_index_characterized :
    ∀ (nav : DiffNavigator) (f k : Nat),
      (nav.global_line_index =
        ((nav.diff.files.take nav.position.file_idx).map FileDiff.total_lines).sum
        + (match nav.diff.files[nav.position.file_idx]? with
           | some file =>
             ((file.hunks.take nav.position.hunk_idx).map (fun h => h.lines.length)).sum
             + (if nav.position.hunk_idx < file.hunks.length then nav.position.line_idx else 0)
           | none => 0))
      ∧ ((nav.goto_line f k).1 = true →
          (nav.goto_line f k).2.global_line_index =
            ((nav.diff.files.take f).map FileDiff.total_lines).sum + k) := by
  intro nav f k
  constructor
  · unfold DiffNavigator.global_line_index
    rw [gliFiles_eq nav.position nav.diff.files 0, if_pos (Nat.zero_le _)]
    simp only [Nat.sub_zero]
    cases hg : nav.diff.files[nav.position.file_idx]? with
    | none => rfl
    | some file =>
      dsimp only
      rw [gliHunks_eq nav.position file.hunks 0, if_pos (Nat.zero_le _)]
      simp only [Nat.sub_zero]
  · intro h
    by_cases hf : f < nav.diff.files.length
    · have hr : nav.goto_file f = (true, { nav with position := ⟨f, 0, 0⟩ }) := by
        unfold DiffNavigator.goto_file
        rw [if_pos hf]
      obtain ⟨file, hfile⟩ : ∃ file, nav.diff.files[f]? = some file := by
        rw [List.getElem?_eq_getElem hf]
        exact ⟨_, rfl⟩
      cases hscan : scanHunks file.hunks 0 0 k with
      | none =>
        have hgl : nav.goto_line f k = (false, { nav with position := ⟨f, 0, 0⟩ }) := by
          unfold DiffNavigator.goto_line
          rw [hr]
          simp [hfile, hscan]
        rw [hgl] at h
        simp at h
      | some hl =>
        have hgl : nav.goto_line f k = (true, { nav with position := ⟨f, hl.1, hl.2⟩ }) := by
          unfold DiffNavigator.goto_line
          rw [hr]
          simp [hfile, hscan]
        rw [hgl]
        obtain ⟨-, hlt, hsum, hkk, -, -⟩ :=
          scanHunks_some file.hunks 0 0 hl.1 hl.2 (Nat.zero_le k) hscan
        simp only [Nat.sub_zero] at hlt hsum
        unfold DiffNavigator.global_line_index
        dsimp only
        rw [gliFiles_eq _ _ 0, if_pos (Nat.zero_le _)]
        simp only [Nat.sub_zero]
        rw [hfile]
        dsimp only
        rw [gliHunks_eq _ _ 0, if_pos (Nat.zero_le _)]
        simp only [Nat.sub_zero]
        rw [if_pos hlt]
        omega
    · have hr : nav.goto_file f = (false, nav) := by
        unfold DiffNavigator.goto_file
        rw [if_neg hf]
      have hgl : nav.goto_line f k = (false, nav) := by
        unfold DiffNavigator.goto_line
        rw [hr]
        simp
      rw [hgl] at h
      simp at h

/-- Witness for `global_line_index_characterized`: on the two-file diff,
after `goto_line(1, 1)` the global index is the first file's 2 lines plus
the offset 1. -/
theorem global_line_index_characterized_witness :
    ((DiffNavigator.new navDiff2).goto_line 1 1).2.global_line_index = 2 + 1 := by
  have h := (global_line_index_characterized (DiffNavigator.new navDiff2) 1 1).2 (by decide)
  simpa using h

/-! ## Theorems: lazy-file loading is idempotent (C9) -/

theorem not_needs_of_lazy_false {f : FileDiff} (h : f.lazy = false) :
    ¬ f.needs_loading = true := by
  simp [FileDiff.needs_loading, h]

/-- C9: `load_lazy_file` is idempotent over a fixed file system: when a
call produces `file'`, a second call on `file'` returns it unchanged
(after the first call `needs_loading()` is false in every branch — file
missing, oversized, unreadable as text, empty, or loaded — so the second
call is a no-op); a file that needed loading has its lazy flag cleared by
the first call. -/
theorem load_lazy_file_idempotent :
    ∀ (cfg : ParserConfig) (fs : FileSys) (file file' : FileDiff),
      DiffParser.load_lazy_file cfg fs file = some file' →
      DiffParser.load_lazy_file cfg fs file' = some file'
      ∧ (file.needs_loading = true → file'.lazy = false) := by
  intro cfg fs file file' h
  unfold DiffParser.load_lazy_file at h
  split at h
  · rename_i hnl
    replace h := Option.some.inj h
    subst h
    constructor
    · unfold DiffParser.load_lazy_file
      rw [if_pos hnl]
    · intro hload
      exact absurd hload hnl
  · split at h
    · exact absurd h (by simp)
    · rename_i path hpath
      dsimp only at h
      split at h
      · replace h := Option.some.inj h
        subst h
        refine ⟨?_, fun _ => rfl⟩
        unfold DiffParser.load_lazy_file
        rw [if_pos (not_needs_of_lazy_false rfl)]
      · split at h
        · replace h := Option.some.inj h
          subst h
          refine ⟨?_, fun _ => rfl⟩
          unfold DiffParser.load_lazy_file
          rw [if_pos (not_needs_of_lazy_false rfl)]
        · split at h
          · replace h := Option.some.inj h
            subst h
            refine ⟨?_, fun _ => rfl⟩
            unfold DiffParser.load_lazy_file
            rw [if_pos (not_needs_of_lazy_false rfl)]
          · split at h
            · replace h := Option.some.inj h
              subst h
              refine ⟨?_, fun _ => rfl⟩
              unfold DiffParser.load_lazy_file
              rw [if_pos (not_needs_of_lazy_false rfl)]
            · replace h := Option.some.inj h
              subst h
              refine ⟨?_, fun _ => rfl⟩
              unfold DiffParser.load_lazy_file
              rw [if_pos (not_needs_of_lazy_false rfl)]

/-- Witness for `load_lazy_file_idempotent`: a fresh lazy file over a
two-line file system snapshot loads once, and the second call returns the
loaded file unchanged. -/
theorem load_lazy_file_idempotent_witness :
    DiffParser.load_lazy_file ⟨true, some 100⟩ lazyFsW lazyFileW = some lazyLoadedW
    ∧ DiffParser.load_lazy_file ⟨true, some 100⟩ lazyFsW lazyLoadedW = some lazyLoadedW
    ∧ lazyFileW.needs_loading = true
    ∧ lazyLoadedW.lazy = false := by
  have h : DiffParser.load_lazy_file ⟨true, some 100⟩ lazyFsW lazyFileW = some lazyLoadedW := by
    rfl
  have h2 := load_lazy_file_idempotent ⟨true, some 100⟩ lazyFsW lazyFileW lazyLoadedW h
  exact ⟨h, h2.1, by rfl, h2.2 (by rfl)⟩

/-! ## Theorems: comment-manager atomicity on error (C10) -/

theorem mapRemove_fst (m : List (String × Comment)) (k : String) :
    (mapRemove m k).1 = listGet m k := by
  induction m with
  | nil => rfl
  | cons p rest ih =>
    obtain ⟨k', v⟩ := p
    unfold mapRemove listGet
    split
    · rfl
    · exact ih

/-- C10: every failing `CommentManager` mutation leaves the manager — the
authoritative map and all three index maps — exactly as it was: `add`
fails (with a Validation error) precisely when the id is already present,
and `update`, `update_state`, `delete` fail (with a CommentNotFound error)
precisely when the id is absent; in each failing case the returned manager
equals the input manager. -/
theorem manager_error_atomicity :
    ∀ (m : CommentManager) (c : Comment) (id content : String)
      (st : CommentState) (now : Nat),
      ((m.add c).1.isOk = false ↔ (listGet m.comments c.id).isSome = true)
      ∧ ((m.add c).1.isOk = false → (m.add c).2 = m
          ∧ ∃ msg, (m.add c).1 = .error (.validation msg))
      ∧ ((m.update id content now).1.isOk = false ↔ listGet m.comments id = none)
      ∧ ((m.update id content now).1.isOk = false → (m.update id content now).2 = m
          ∧ (m.update id content now).1 = .error (.commentNotFound id))
      ∧ ((m.update_state id st now).1.isOk = false ↔ listGet m.comments id = none)
      ∧ ((m.update_state id st now).1.isOk = false → (m.update_state id st now).2 = m
          ∧ (m.update_state id st now).1 = .error (.commentNotFound id))
      ∧ ((m.delete id).1.isOk = false ↔ listGet m.comments id = none)
      ∧ ((m.delete id).1.isOk = false → (m.delete id).2 = m
          ∧ (m.delete id).1 = .error (.commentNotFound id)) := by
  intro m c id content st now
  refine ⟨?_, ?_, ?_, ?_, ?_, ?_, ?_, ?_⟩
  · unfold CommentManager.add
    split
    · rename_i hc
      exact ⟨fun _ => hc, fun _ => rfl⟩
    · rename_i hc
      constructor
      · intro h; simp [Except.isOk, Except.toBool] at h
      · intro h; exact absurd h hc
  · unfold CommentManager.add
    split
    · exact fun _ => ⟨rfl, ⟨_, rfl⟩⟩
    · intro h; simp [Except.isOk, Except.toBool] at h
  · unfold CommentManager.update
    split
    · rename_i hc
      exact ⟨fun _ => hc, fun _ => rfl⟩
    · rename_i c' hc
      constructor
      · intro h; simp [Except.isOk, Except.toBool] at h
      · intro h; rw [hc] at h; cases h
  · unfold CommentManager.update
    split
    · exact fun _ => ⟨rfl, rfl⟩
    · intro h; simp [Except.isOk, Except.toBool] at h
  · unfold CommentManager.update_state
    split
    · rename_i hc
      exact ⟨fun _ => hc, fun _ => rfl⟩
    · rename_i c' hc
      constructor
      · intro h; simp [Except.isOk, Except.toBool] at h
      · intro h; rw [hc] at h; cases h
  · unfold CommentManager.update_state
    split
    · exact fun _ => ⟨rfl, rfl⟩
    · intro h; simp [Except.isOk, Except.toBool] at h
  · unfold CommentManager.delete
    dsimp only
    split
    · rename_i hr
      rw [mapRemove_fst] at hr
      exact ⟨fun _ => hr, fun _ => rfl⟩
    · rename_i c' hr
      rw [mapRemove_fst] at hr
      constructor
      · intro h; simp [Except.isOk, Except.toBool] at h
      · intro h; rw [hr] at h; cases h
  · unfold CommentManager.delete
    dsimp only
    split
    · exact fun _ => ⟨rfl, rfl⟩
    · intro h; simp [Except.isOk, Except.toBool] at h

/-- Witness for `manager_error_atomicity`: deleting from the empty manager
fails with CommentNotFound and leaves it untouched; adding the same
comment twice fails the second time and leaves the one-comment manager
untouched. -/
theorem manager_error_atomicity_witness :
    (CommentManager.new.delete "x").2 = CommentManager.new
    ∧ (CommentManager.new.delete "x").1 = .error (.commentNotFound "x") := by
  have h := (manager_error_atomicity CommentManager.new
    ⟨"x", .singleLine "f" "l" .new, "", .info, [], 0, 0, .Open⟩ "x" "" .Open 0).2.2.2.2.2.2.2
  have hfail : ((CommentManager.new.delete "x").1.isOk = false) := by decide
  exact h hfail

/-! ## Theorems: association-list layer for the comment index (C4) -/

theorem listGet_cons_self {α β : Type} [DecidableEq α] (k : α) (b : β)
    (rest : List (α × β)) : listGet ((k, b) :: rest) k = some b := by
  unfold listGet
  rw [if_pos rfl]

theorem listGet_cons_ne {α β : Type} [DecidableEq α] {k₀ k : α} (b : β)
    (rest : List (α × β)) (h : k₀ ≠ k) :
    listGet ((k₀, b) :: rest) k = listGet rest k := by
  simp only [listGet]
  rw [if_neg h]

theorem listGet_eq_none_of_not_mem {α β : Type} [DecidableEq α]
    {m : List (α × β)} {k : α} (h : k ∉ m.map Prod.fst) : listGet m k = none := by
  induction m with
  | nil => rfl
  | cons p rest ih =>
    obtain ⟨k₀, b⟩ := p
    simp only [List.map_cons, List.mem_cons] at h
    push_neg at h
    rw [listGet_cons_ne b rest (Ne.symm h.1)]
    exact ih h.2

theorem listGet_isSome_of_mem {α β : Type} [DecidableEq α]
    {m : List (α × β)} {k : α} (h : k ∈ m.map Prod.fst) :
    (listGet m k).isSome = true := by
  induction m with
  | nil => simp at h
  | cons p rest ih =>
    obtain ⟨k₀, b⟩ := p
    by_cases hk : k₀ = k
    · subst hk
      rw [listGet_cons_self]
      rfl
    · rw [listGet_cons_ne b rest hk]
      simp only [List.map_cons, List.mem_cons] at h
      rcases h with h | h
      · exact absurd h.symm hk
      · exact ih h

theorem listGet_entryPush_self {α : Type} [DecidableEq α]
    (m : List (α × List String)) (k : α) (v : String) :
    listGet (entryPush m k v) k = some ((listGet m k).getD [] ++ [v]) := by
  induction m with
  | nil =>
    unfold entryPush
    rw [listGet_cons_self]
    rfl
  | cons p rest ih =>
    obtain ⟨k₀, vs⟩ := p
    unfold entryPush
    by_cases hk : k₀ = k
    · subst hk
      rw [if_pos rfl, listGet_cons_self, listGet_cons_self]
      rfl
    · rw [if_neg hk, listGet_cons_ne _ _ hk, listGet_cons_ne _ _ hk]
      exact ih

theorem listGet_entryPush_ne {α : Type} [DecidableEq α]
    (m : List (α × List String)) {k k' : α} (v : String) (h : k' ≠ k) :
    listGet (entryPush m k v) k' = listGet m k' := by
  induction m with
  | nil =>
    unfold entryPush
    rw [listGet_cons_ne _ _ (fun heq => h heq.symm)]
  | cons p rest ih =>
    obtain ⟨k₀, vs⟩ := p
    unfold entryPush
    by_cases hk : k₀ = k
    · subst hk
      rw [if_pos rfl, listGet_cons_ne _ _ (fun heq => h heq.symm),
        listGet_cons_ne _ _ (fun heq => h heq.symm)]
    · rw [if_neg hk]
      by_cases hk' : k₀ = k'
      · subst hk'
        rw [listGet_cons_self, listGet_cons_self]
      · rw [listGet_cons_ne _ _ hk', listGet_cons_ne _ _ hk']
        exact ih

theorem keys_entryPush {α : Type} [DecidableEq α]
    (m : List (α × List String)) (k : α) (v : String) :
    (entryPush m k v).map Prod.fst =
      if (listGet m k).isSome then m.map Prod.fst else m.map Prod.fst ++ [k] := by
  induction m with
  | nil => rfl
  | cons p rest ih =>
    obtain ⟨k₀, vs⟩ := p
    unfold entryPush
    by_cases hk : k₀ = k
    · subst hk
      rw [if_pos rfl, listGet_cons_self]
      rfl
    · rw [if_neg hk, listGet_cons_ne _ _ hk]
      simp only [List.map_cons, ih]
      by_cases hs : (listGet rest k).isSome
      · rw [if_pos hs, if_pos hs]
      · rw [if_neg hs, if_neg hs]
        rfl

theorem nodup_entryPush {α : Type} [DecidableEq α]
    {m : List (α × List String)} {k : α} {v : String}
    (hnd : (m.map Prod.fst).Nodup) :
    ((entryPush m k v).map Prod.fst).Nodup := by
  rw [keys_entryPush]
  by_cases hs : (listGet m k).isSome
  · rw [if_pos hs]
    exact hnd
  · rw [if_neg hs]
    have hk : k ∉ m.map Prod.fst := by
      intro hmem
      exact hs (listGet_isSome_of_mem hmem)
    rw [List.nodup_append]
    refine ⟨hnd, List.nodup_singleton k, ?_⟩
    intro a ha hb
    simp only [List.mem_singleton] at hb
    subst hb
    exact hk ha

theorem nonempty_entryPush {α : Type} [DecidableEq α]
    {m : List (α × List String)} {k₀ : α} {v : String}
    (hm : ∀ k vs, listGet m k = some vs → vs ≠ []) :
    ∀ k vs, listGet (entryPush m k₀ v) k = some vs → vs ≠ [] := by
  intro k vs hvs
  by_cases hk : k = k₀
  · subst hk
    rw [listGet_entryPush_self] at hvs
    replace hvs := Option.some.inj hvs
    subst hvs
    simp
  · rw [listGet_entryPush_ne _ _ hk] at hvs
    exact hm k vs hvs

theorem keys_bucketRemove_sublist {α : Type} [DecidableEq α]
    (m : List (α × List String)) (k : α) (v : String) :
    ((bucketRemove m k v).map Prod.fst).Sublist (m.map Prod.fst) := by
  induction m with
  | nil => exact List.Sublist.refl _
  | cons p rest ih =>
    obtain ⟨k₀, vs⟩ := p
    unfold bucketRemove
    by_cases hk : k₀ = k
    · rw [if_pos hk]
      dsimp only
      by_cases he : (vs.filter (fun x => x ≠ v)).isEmpty
      · rw [if_pos he]
        exact (List.Sublist.refl _).cons _
      · rw [if_neg he]
        exact (List.Sublist.refl _).cons₂ _
    · rw [if_neg hk]
      exact ih.cons₂ _

theorem nodup_bucketRemove {α : Type} [DecidableEq α]
    {m : List (α × List String)} {k : α} {v : String}
    (hnd : (m.map Prod.fst).Nodup) :
    ((bucketRemove m k v).map Prod.fst).Nodup :=
  hnd.sublist (keys_bucketRemove_sublist m k v)

theorem listGet_bucketRemove_ne {α : Type} [DecidableEq α]
    (m : List (α × List String)) {k k' : α} (v : String) (h : k' ≠ k) :
    listGet (bucketRemove m k v) k' = listGet m k' := by
  induction m with
  | nil => rfl
  | cons p rest ih =>
    obtain ⟨k₀, vs⟩ := p
    unfold bucketRemove
    by_cases hk : k₀ = k
    · subst hk
      rw [if_pos rfl]
      dsimp only
      by_cases he : (vs.filter (fun x => x ≠ v)).isEmpty
      · rw [if_pos he, listGet_cons_ne _ _ (fun heq => h (heq.symm))]
      · rw [if_neg he, listGet_cons_ne _ _ (fun heq => h (heq.symm)),
          listGet_cons_ne _ _ (fun heq => h (heq.symm))]
    · rw [if_neg hk]
      by_cases hk' : k₀ = k'
      · subst hk'
        rw [listGet_cons_self, listGet_cons_self]
      · rw [listGet_cons_ne _ _ hk', listGet_cons_ne _ _ hk']
        exact ih

theorem listGet_bucketRemove_self {α : Type} [DecidableEq α]
    {m : List (α × List String)} {k : α} {v : String}
    (hnd : (m.map Prod.fst).Nodup) :
    ∀ vs, listGet (bucketRemove m k v) k = some vs →
      vs ≠ [] ∧ vs = ((listGet m k).getD []).filter (fun x => x ≠ v) := by
  induction m with
  | nil => intro vs hvs; cases hvs
  | cons p rest ih =>
    obtain ⟨k₀, vs₀⟩ := p
    unfold bucketRemove
    by_cases hk : k₀ = k
    · subst hk
      rw [if_pos rfl]
      dsimp only
      by_cases he : (vs₀.filter (fun x => x ≠ v)).isEmpty
      · rw [if_pos he]
        intro vs hvs
        have hnotin : k₀ ∉ rest.map Prod.fst :=
          (List.nodup_cons.mp (by simpa using hnd)).1
        rw [listGet_eq_none_of_not_mem hnotin] at hvs
        cases hvs
      · rw [if_neg he]
        intro vs hvs
        rw [listGet_cons_self] at hvs
        replace hvs := Option.some.inj hvs
        subst hvs
        refine ⟨?_, ?_⟩
        · intro h0
          apply he
          rw [h0]
          rfl
        · rw [listGet_cons_self]
          rfl
    · rw [if_neg hk]
      intro vs hvs
      rw [listGet_cons_ne _ _ hk] at hvs
      have := ih (List.Nodup.of_cons (by simpa using hnd)) vs hvs
      rw [listGet_cons_ne _ _ hk]
      exact this

theorem listGet_bucketRemove_self_eq {α : Type} [DecidableEq α]
    {m : List (α × List String)} {k : α} {v : String}
    (hnd : (m.map Prod.fst).Nodup) :
    listGet (bucketRemove m k v) k =
      match listGet m k with
      | none => none
      | some vs =>
        if (vs.filter (fun x => x ≠ v)).isEmpty then none
        else some (vs.filter (fun x => x ≠ v)) := by
  induction m with
  | nil => rfl
  | cons p rest ih =>
    obtain ⟨k₀, vs₀⟩ := p
    unfold bucketRemove
    by_cases hk : k₀ = k
    · subst hk
      rw [if_pos rfl]
      dsimp only
      by_cases he : (vs₀.filter (fun x => x ≠ v)).isEmpty
      · rw [if_pos he, listGet_cons_self]
        dsimp only
        rw [if_pos he]
        exact listGet_eq_none_of_not_mem (List.nodup_cons.mp (by simpa using hnd)).1
      · rw [if_neg he, listGet_cons_self, listGet_cons_self]
        dsimp only
        rw [if_neg he]
    · rw [if_neg hk, listGet_cons_ne _ _ hk, listGet_cons_ne _ _ hk]
      exact ih (List.Nodup.of_cons (by simpa using hnd))

theorem mem_bucketRemove_self {α : Type} [DecidableEq α]
    {m : List (α × List String)} {k : α} {v id' : String}
    (hnd : (m.map Prod.fst).Nodup) :
    id' ∈ (listGet (bucketRemove m k v) k).getD [] ↔
      (id' ∈ (listGet m k).getD [] ∧ id' ≠ v) := by
  rw [listGet_bucketRemove_self_eq hnd]
  cases hg : listGet m k with
  | none => simp
  | some vs =>
    dsimp only
    by_cases he : (vs.filter (fun x => x ≠ v)).isEmpty
    · rw [if_pos he]
      simp only [Option.getD_none, List.not_mem_nil, false_iff, Option.getD_some]
      rintro ⟨h1, h2⟩
      have hmem : id' ∈ vs.filter (fun x => x ≠ v) :=
        List.mem_filter.mpr ⟨h1, by simp [h2]⟩
      rw [List.isEmpty_iff] at he
      rw [he] at hmem
      simp at hmem
    · rw [if_neg he]
      simp only [Option.getD_some, List.mem_filter, decide_eq_true_eq]

theorem mem_bucketRemove {α : Type} [DecidableEq α]
    {m : List (α × List String)} {k₀ k : α} {v id' : String}
    (hnd : (m.map Prod.fst).Nodup) :
    id' ∈ (listGet (bucketRemove m k₀ v) k).getD [] ↔
      (id' ∈ (listGet m k).getD [] ∧ ¬(k = k₀ ∧ id' = v)) := by
  by_cases hk : k = k₀
  · subst hk
    rw [mem_bucketRemove_self hnd]
    constructor
    · rintro ⟨h1, h2⟩
      exact ⟨h1, fun hc => h2 hc.2⟩
    · rintro ⟨h1, h2⟩
      exact ⟨h1, fun hv => h2 ⟨rfl, hv⟩⟩
  · rw [listGet_bucketRemove_ne _ _ hk]
    constructor
    · intro h1
      exact ⟨h1, fun hc => hk hc.1⟩
    · rintro ⟨h1, -⟩
      exact h1

theorem nonempty_bucketRemove {α : Type} [DecidableEq α]
    {m : List (α × List String)} {k₀ : α} {v : String}
    (hnd : (m.map Prod.fst).Nodup)
    (hm : ∀ k vs, listGet m k = some vs → vs ≠ []) :
    ∀ k vs, listGet (bucketRemove m k₀ v) k = some vs → vs ≠ [] := by
  intro k vs hvs
  by_cases hk : k = k₀
  · subst hk
    rw [listGet_bucketRemove_self_eq hnd] at hvs
    cases hg : listGet m k with
    | none => rw [hg] at hvs; cases hvs
    | some vs₀ =>
      rw [hg] at hvs
      dsimp only at hvs
      by_cases he : (vs₀.filter (fun x => x ≠ v)).isEmpty
      · rw [if_pos he] at hvs; cases hvs
      · rw [if_neg he] at hvs
        replace hvs := Option.some.inj hvs
        subst hvs
        intro h0
        apply he
        rw [h0]
        rfl
  · rw [listGet_bucketRemove_ne _ _ hk] at hvs
    exact hm k vs hvs

/-! ### Folds of the per-line index updates -/

theorem mem_fold_entryPush (ids : List String) :
    ∀ (m : List (String × List String)) (v k id' : String),
      (id' ∈ (listGet (ids.foldl (fun acc lid => entryPush acc lid v) m) k).getD [] ↔
        id' ∈ (listGet m k).getD [] ∨ (id' = v ∧ k ∈ ids)) := by
  induction ids with
  | nil => intro m v k id'; simp
  | cons lid ids ih =>
    intro m v k id'
    simp only [List.foldl_cons]
    rw [ih]
    by_cases hk : k = lid
    · subst hk
      rw [listGet_entryPush_self]
      simp only [Option.getD_some, List.mem_append, List.mem_singleton, List.mem_cons,
        List.not_mem_nil, or_false]
      tauto
    · rw [listGet_entryPush_ne _ _ hk]
      simp only [List.mem_cons]
      constructor
      · rintro (h | h)
        · exact Or.inl h
        · exact Or.inr ⟨h.1, Or.inr h.2⟩
      · rintro (h | ⟨h1, h2 | h2⟩)
        · exact Or.inl h
        · exact absurd h2 hk
        · exact Or.inr ⟨h1, h2⟩

theorem nonempty_fold_entryPush (ids : List String) :
    ∀ (m : List (String × List String)) (v : String),
      (∀ k vs, listGet m k = some vs → vs ≠ []) →
      ∀ k vs, listGet (ids.foldl (fun acc lid => entryPush acc lid v) m) k = some vs →
        vs ≠ [] := by
  induction ids with
  | nil => intro m v hm; exact hm
  | cons lid ids ih =>
    intro m v hm
    simp only [List.foldl_cons]
    exact ih _ _ (nonempty_entryPush hm)

theorem nodup_fold_entryPush (ids : List String) :
    ∀ (m : List (String × List String)) (v : String),
      (m.map Prod.fst).Nodup →
      ((ids.foldl (fun acc lid => entryPush acc lid v) m).map Prod.fst).Nodup := by
  induction ids with
  | nil => intro m v h; exact h
  | cons lid ids ih =>
    intro m v h
    simp only [List.foldl_cons]
    exact ih _ _ (nodup_entryPush h)

theorem nodup_fold_bucketRemove (ids : List String) :
    ∀ (m : List (String × List String)) (v : String),
      (m.map Prod.fst).Nodup →
      ((ids.foldl (fun acc lid => bucketRemove acc lid v) m).map Prod.fst).Nodup := by
  induction ids with
  | nil => intro m v h; exact h
  | cons lid ids ih =>
    intro m v h
    simp only [List.foldl_cons]
    exact ih _ _ (nodup_bucketRemove h)

theorem mem_fold_bucketRemove (ids : List String) :
    ∀ (m : List (String × List String)) (v k id' : String),
      (m.map Prod.fst).Nodup →
      (id' ∈ (listGet (ids.foldl (fun acc lid => bucketRemove acc lid v) m) k).getD [] ↔
        id' ∈ (listGet m k).getD [] ∧ ¬(id' = v ∧ k ∈ ids)) := by
  induction ids with
  | nil => intro m v k id' hnd; simp
  | cons lid ids ih =>
    intro m v k id' hnd
    simp only [List.foldl_cons]
    rw [ih _ _ _ _ (nodup_bucketRemove hnd), mem_bucketRemove hnd]
    simp only [List.mem_cons]
    constructor
    · rintro ⟨⟨h1, h2⟩, h3⟩
      refine ⟨h1, ?_⟩
      rintro ⟨hv, hlid | hids⟩
      · exact h2 ⟨hlid, hv⟩
      · exact h3 ⟨hv, hids⟩
    · rintro ⟨h1, h2⟩
      refine ⟨⟨h1, ?_⟩, ?_⟩
      · rintro ⟨hlid, hv⟩
        exact h2 ⟨hv, Or.inl hlid⟩
      · rintro ⟨hv, hids⟩
        exact h2 ⟨hv, Or.inr hids⟩

theorem nonempty_fold_bucketRemove (ids : List String) :
    ∀ (m : List (String × List String)) (v : String),
      (m.map Prod.fst).Nodup →
      (∀ k vs, listGet m k = some vs → vs ≠ []) →
      ∀ k vs, listGet (ids.foldl (fun acc lid => bucketRemove acc lid v) m) k = some vs →
        vs ≠ [] := by
  induction ids with
  | nil => intro m v _ hm; exact hm
  | cons lid ids ih =>
    intro m v hnd hm
    simp only [List.foldl_cons]
    exact ih _ _ (nodup_bucketRemove hnd) (nonempty_bucketRemove hnd hm)

/-! ### The authoritative comment map -/

theorem listGet_mapInsert_self (m : List (String × Comment)) (k : String) (v : Comment) :
    listGet (mapInsert m k v) k = some v := by
  induction m with
  | nil => exact listGet_cons_self k v []
  | cons p rest ih =>
    obtain ⟨k₀, v₀⟩ := p
    unfold mapInsert
    by_cases hk : k₀ = k
    · rw [if_pos hk]
      exact listGet_cons_self k v rest
    · rw [if_neg hk, listGet_cons_ne _ _ hk]
      exact ih

theorem listGet_mapInsert_ne (m : List (String × Comment)) (v : Comment)
    {k k' : String} (h : k' ≠ k) :
    listGet (mapInsert m k v) k' = listGet m k' := by
  induction m with
  | nil =>
    unfold mapInsert
    rw [listGet_cons_ne _ _ (fun heq => h heq.symm)]
  | cons p rest ih =>
    obtain ⟨k₀, v₀⟩ := p
    unfold mapInsert
    by_cases hk : k₀ = k
    · subst hk
      rw [if_pos rfl, listGet_cons_ne _ _ (fun heq => h heq.symm),
        listGet_cons_ne _ _ (fun heq => h heq.symm)]
    · rw [if_neg hk]
      by_cases hk' : k₀ = k'
      · subst hk'
        rw [listGet_cons_self, listGet_cons_self]
      · rw [listGet_cons_ne _ _ hk', listGet_cons_ne _ _ hk']
        exact ih

theorem keys_mapInsert_of_absent {m : List (String × Comment)} {k : String}
    (v : Comment) (habs : listGet m k = none) :
    (mapInsert m k v).map Prod.fst = m.map Prod.fst ++ [k] := by
  induction m with
  | nil => rfl
  | cons p rest ih =>
    obtain ⟨k₀, v₀⟩ := p
    unfold mapInsert
    by_cases hk : k₀ = k
    · subst hk
      rw [listGet_cons_self] at habs
      cases habs
    · rw [if_neg hk]
      rw [listGet_cons_ne _ _ hk] at habs
      simp only [List.map_cons, ih habs]
      rfl

theorem nodup_mapInsert_of_absent {m : List (String × Comment)} {k : String}
    {v : Comment} (habs : listGet m k = none)
    (hnd : (m.map Prod.fst).Nodup) :
    ((mapInsert m k v).map Prod.fst).Nodup := by
  rw [keys_mapInsert_of_absent v habs, List.nodup_append]
  refine ⟨hnd, List.nodup_singleton k, ?_⟩
  intro a ha hb
  simp only [List.mem_singleton] at hb
  subst hb
  have := listGet_isSome_of_mem ha
  rw [habs] at this
  cases this

theorem mapRemove_snd_listGet_self {m : List (String × Comment)} {k : String}
    (hnd : (m.map Prod.fst).Nodup) :
    listGet (mapRemove m k).2 k = none := by
  induction m with
  | nil => rfl
  | cons p rest ih =>
    obtain ⟨k₀, v⟩ := p
    unfold mapRemove
    by_cases hk : k₀ = k
    · subst hk
      rw [if_pos rfl]
      exact listGet_eq_none_of_not_mem (List.nodup_cons.mp (by simpa using hnd)).1
    · rw [if_neg hk]
      dsimp only
      rw [listGet_cons_ne _ _ hk]
      exact ih (List.Nodup.of_cons (by simpa using hnd))

theorem mapRemove_snd_listGet_ne (m : List (String × Comment)) {k k' : String}
    (h : k' ≠ k) :
    listGet (mapRemove m k).2 k' = listGet m k' := by
  induction m with
  | nil => rfl
  | cons p rest ih =>
    obtain ⟨k₀, v⟩ := p
    unfold mapRemove
    by_cases hk : k₀ = k
    · subst hk
      rw [if_pos rfl]
      dsimp only
      rw [listGet_cons_ne _ _ (fun heq => h heq.symm)]
    · rw [if_neg hk]
      dsimp only
      by_cases hk' : k₀ = k'
      · subst hk'
        rw [listGet_cons_self, listGet_cons_self]
      · rw [listGet_cons_ne _ _ hk', listGet_cons_ne _ _ hk']
        exact ih

theorem keys_mapRemove_sublist (m : List (String × Comment)) (k : String) :
    (((mapRemove m k).2).map Prod.fst).Sublist (m.map Prod.fst) := by
  induction m with
  | nil => exact List.Sublist.refl _
  | cons p rest ih =>
    obtain ⟨k₀, v⟩ := p
    unfold mapRemove
    by_cases hk : k₀ = k
    · rw [if_pos hk]
      exact (List.Sublist.refl _).cons _
    · rw [if_neg hk]
      exact ih.cons₂ _

theorem listGet_mapSet_self (m : List (String × Comment)) (k : String)
    (f : Comment → Comment) :
    listGet (mapSet m k f) k = (listGet m k).map f := by
  induction m with
  | nil => rfl
  | cons p rest ih =>
    obtain ⟨k₀, v⟩ := p
    unfold mapSet
    by_cases hk : k₀ = k
    · subst hk
      rw [if_pos rfl, listGet_cons_self, listGet_cons_self]
      rfl
    · rw [if_neg hk, listGet_cons_ne _ _ hk, listGet_cons_ne _ _ hk]
      exact ih

theorem listGet_mapSet_ne (m : List (String × Comment)) (f : Comment → Comment)
    {k k' : String} (h : k' ≠ k) :
    listGet (mapSet m k f) k' = listGet m k' := by
  induction m with
  | nil => rfl
  | cons p rest ih =>
    obtain ⟨k₀, v⟩ := p
    unfold mapSet
    by_cases hk : k₀ = k
    · subst hk
      rw [if_pos rfl, listGet_cons_ne _ _ (fun heq => h heq.symm),
        listGet_cons_ne _ _ (fun heq => h heq.symm)]
    · rw [if_neg hk]
      by_cases hk' : k₀ = k'
      · subst hk'
        rw [listGet_cons_self, listGet_cons_self]
      · rw [listGet_cons_ne _ _ hk', listGet_cons_ne _ _ hk']
        exact ih

theorem keys_mapSet (m : List (String × Comment)) (k : String) (f : Comment → Comment) :
    (mapSet m k f).map Prod.fst = m.map Prod.fst := by
  induction m with
  | nil => rfl
  | cons p rest ih =>
    obtain ⟨k₀, v⟩ := p
    unfold mapSet
    by_cases hk : k₀ = k
    · rw [if_pos hk]
      simp
    · rw [if_neg hk]
      simp only [List.map_cons, ih]

/-! ### Invariant preservation (C4) -/

theorem inv_new : ManagerInv CommentManager.new := by
  refine ⟨List.nodup_nil, ?_, List.nodup_nil, List.nodup_nil, List.nodup_nil, ?_, ?_, ?_⟩
  · intro k c hc
    simp [CommentManager.new, listGet] at hc
  · intro k vs hvs
    simp [CommentManager.new, CommentIndex.new, listGet] at hvs
  · intro k vs hvs
    simp [CommentManager.new, CommentIndex.new, listGet] at hvs
  · intro k vs hvs
    simp [CommentManager.new, CommentIndex.new, listGet] at hvs

theorem inv_add {m : CommentManager} (c : Comment) (h : ManagerInv m) :
    ManagerInv (m.add c).2 := by
  unfold CommentManager.add
  split
  · exact h
  · rename_i habs
    have habs' : listGet m.comments c.id = none := by
      cases hg : listGet m.comments c.id with
      | none => rfl
      | some _ => rw [hg] at habs; simp at habs
    obtain ⟨hnd, hkey, hndl, hndf, hnds, hbl, hbf, hbs⟩ := h
    dsimp only
    unfold CommentIndex.add
    refine ⟨?_, ?_, ?_, ?_, ?_, ?_, ?_, ?_⟩
    · exact nodup_mapInsert_of_absent habs' hnd
    · intro k c' hc'
      by_cases hk : k = c.id
      · subst hk
        rw [listGet_mapInsert_self] at hc'
        replace hc' := Option.some.inj hc'
        subst hc'
        rfl
      · rw [listGet_mapInsert_ne _ _ hk] at hc'
        exact hkey k c' hc'
    · exact nodup_fold_entryPush _ _ _ hndl
    · exact nodup_entryPush hndf
    · exact nodup_entryPush hnds
    · intro k vs hvs
      refine ⟨nonempty_fold_entryPush _ _ _
        (fun k' vs' h' => (hbl k' vs' h').1) k vs hvs, ?_⟩
      intro id' hid'
      have hmem : id' ∈ (listGet (c.line_ids.foldl
          (fun acc lid => entryPush acc lid c.id) m.index.by_line) k).getD [] := by
        rw [hvs]
        exact hid'
      rw [mem_fold_entryPush] at hmem
      rcases hmem with hold | ⟨rfl, hk⟩
      · cases hg : listGet m.index.by_line k with
        | none => rw [hg] at hold; simp at hold
        | some vs₀ =>
          rw [hg] at hold
          simp only [Option.getD_some] at hold
          obtain ⟨c', hc', hkmem⟩ := (hbl k vs₀ hg).2 id' hold
          have hne : id' ≠ c.id := by
            intro heq
            rw [heq, habs'] at hc'
            cases hc'
          refine ⟨c', ?_, hkmem⟩
          rw [listGet_mapInsert_ne _ _ hne]
          exact hc'
      · exact ⟨c, by rw [listGet_mapInsert_self], hk⟩
    · intro k vs hvs
      by_cases hk : k = c.file_id
      · subst hk
        rw [listGet_entryPush_self] at hvs
        replace hvs := Option.some.inj hvs
        subst hvs
        refine ⟨by simp, ?_⟩
        intro id' hid'
        simp only [List.mem_append, List.mem_singleton] at hid'
        rcases hid' with hold | rfl
        · cases hg : listGet m.index.by_file c.file_id with
          | none => rw [hg] at hold; simp at hold
          | some vs₀ =>
            rw [hg] at hold
            simp only [Option.getD_some] at hold
            obtain ⟨c', hc', hrel⟩ := (hbf _ vs₀ hg).2 id' hold
            have hne : id' ≠ c.id := by
              intro heq
              rw [heq, habs'] at hc'
              cases hc'
            exact ⟨c', by rw [listGet_mapInsert_ne _ _ hne]; exact hc', hrel⟩
        · exact ⟨c, by rw [listGet_mapInsert_self], rfl⟩
      · rw [listGet_entryPush_ne _ _ hk] at hvs
        refine ⟨(hbf k vs hvs).1, ?_⟩
        intro id' hid'
        obtain ⟨c', hc', hrel⟩ := (hbf k vs hvs).2 id' hid'
        have hne : id' ≠ c.id := by
          intro heq
          rw [heq, habs'] at hc'
          cases hc'
        exact ⟨c', by rw [listGet_mapInsert_ne _ _ hne]; exact hc', hrel⟩
    · intro k vs hvs
      by_cases hk : k = c.severity
      · subst hk
        rw [listGet_entryPush_self] at hvs
        replace hvs := Option.some.inj hvs
        subst hvs
        refine ⟨by simp, ?_⟩
        intro id' hid'
        simp only [List.mem_append, List.mem_singleton] at hid'
        rcases hid' with hold | rfl
        · cases hg : listGet m.index.by_severity c.severity with
          | none => rw [hg] at hold; simp at hold
          | some vs₀ =>
            rw [hg] at hold
            simp only [Option.getD_some] at hold
            obtain ⟨c', hc', hrel⟩ := (hbs _ vs₀ hg).2 id' hold
            have hne : id' ≠ c.id := by
              intro heq
              rw [heq, habs'] at hc'
              cases hc'
            exact ⟨c', by rw [listGet_mapInsert_ne _ _ hne]; exact hc', hrel⟩
        · exact ⟨c, by rw [listGet_mapInsert_self], rfl⟩
      · rw [listGet_entryPush_ne _ _ hk] at hvs
        refine ⟨(hbs k vs hvs).1, ?_⟩
        intro id' hid'
        obtain ⟨c', hc', hrel⟩ := (hbs k vs hvs).2 id' hid'
        have hne : id' ≠ c.id := by
          intro heq
          rw [heq, habs'] at hc'
          cases hc'
        exact ⟨c', by rw [listGet_mapInsert_ne _ _ hne]; exact hc', hrel⟩

theorem inv_mapSet {m : CommentManager} {id : String} {f : Comment → Comment}
    (hid : ∀ c, (f c).id = c.id) (hl : ∀ c, (f c).line_ids = c.line_ids)
    (hf : ∀ c, (f c).file_id = c.file_id) (hs : ∀ c, (f c).severity = c.severity)
    (h : ManagerInv m) :
    ManagerInv { m with comments := mapSet m.comments id f } := by
  obtain ⟨hnd, hkey, hndl, hndf, hnds, hbl, hbf, hbs⟩ := h
  refine ⟨?_, ?_, hndl, hndf, hnds, ?_, ?_, ?_⟩
  · rw [keys_mapSet]
    exact hnd
  · intro k c' hc'
    by_cases hk : k = id
    · subst hk
      rw [listGet_mapSet_self] at hc'
      cases hg : listGet m.comments k with
      | none => rw [hg] at hc'; cases hc'
      | some c₀ =>
        rw [hg] at hc'
        replace hc' := Option.some.inj hc'
        subst hc'
        rw [hid]
        exact hkey k c₀ hg
    · rw [listGet_mapSet_ne _ _ hk] at hc'
      exact hkey k c' hc'
  · intro k vs hvs
    refine ⟨(hbl k vs hvs).1, ?_⟩
    intro id' hid'
    obtain ⟨c', hc', hrel⟩ := (hbl k vs hvs).2 id' hid'
    by_cases hk : id' = id
    · subst hk
      refine ⟨f c', ?_, ?_⟩
      · rw [listGet_mapSet_self, hc']
        rfl
      · rw [hl]
        exact hrel
    · refine ⟨c', ?_, hrel⟩
      rw [listGet_mapSet_ne _ _ hk]
      exact hc'
  · intro k vs hvs
    refine ⟨(hbf k vs hvs).1, ?_⟩
    intro id' hid'
    obtain ⟨c', hc', hrel⟩ := (hbf k vs hvs).2 id' hid'
    by_cases hk : id' = id
    · subst hk
      refine ⟨f c', ?_, ?_⟩
      · rw [listGet_mapSet_self, hc']
        rfl
      · rw [hf]
        exact hrel
    · refine ⟨c', ?_, hrel⟩
      rw [listGet_mapSet_ne _ _ hk]
      exact hc'
  · intro k vs hvs
    refine ⟨(hbs k vs hvs).1, ?_⟩
    intro id' hid'
    obtain ⟨c', hc', hrel⟩ := (hbs k vs hvs).2 id' hid'
    by_cases hk : id' = id
    · subst hk
      refine ⟨f c', ?_, ?_⟩
      · rw [listGet_mapSet_self, hc']
        rfl
      · rw [hs]
        exact hrel
    · refine ⟨c', ?_, hrel⟩
      rw [listGet_mapSet_ne _ _ hk]
      exact hc'

theorem inv_update {m : CommentManager} (id content : String) (now : Nat)
    (h : ManagerInv m) : ManagerInv (m.update id content now).2 := by
  unfold CommentManager.update
  split
  · exact h
  · exact inv_mapSet (fun _ => rfl) (fun _ => rfl) (fun _ => rfl) (fun _ => rfl) h

theorem inv_update_state {m : CommentManager} (id : String) (st : CommentState)
    (now : Nat) (h : ManagerInv m) : ManagerInv (m.update_state id st now).2 := by
  unfold CommentManager.update_state
  split
  · exact h
  · exact inv_mapSet (fun _ => rfl) (fun _ => rfl) (fun _ => rfl) (fun _ => rfl) h

theorem inv_delete {m : CommentManager} (id : String) (h : ManagerInv m) :
    ManagerInv (m.delete id).2 := by
  unfold CommentManager.delete
  dsimp only
  split
  · exact h
  · rename_i c hr
    rw [mapRemove_fst] at hr
    obtain ⟨hnd, hkey, hndl, hndf, hnds, hbl, hbf, hbs⟩ := h
    have hcid : c.id = id := hkey id c hr
    dsimp only
    unfold CommentIndex.remove
    refine ⟨?_, ?_, ?_, ?_, ?_, ?_, ?_, ?_⟩
    · exact hnd.sublist (keys_mapRemove_sublist _ _)
    · intro k c' hc'
      by_cases hk : k = id
      · subst hk
        rw [mapRemove_snd_listGet_self hnd] at hc'
        cases hc'
      · rw [mapRemove_snd_listGet_ne _ hk] at hc'
        exact hkey k c' hc'
    · exact nodup_fold_bucketRemove _ _ _ hndl
    · exact nodup_bucketRemove hndf
    · exact nodup_bucketRemove hnds
    · intro k vs hvs
      refine ⟨nonempty_fold_bucketRemove _ _ _ hndl
        (fun k' vs' h' => (hbl k' vs' h').1) k vs hvs, ?_⟩
      intro id' hid'
      have hmem : id' ∈ (listGet (c.line_ids.foldl
          (fun acc lid => bucketRemove acc lid c.id) m.index.by_line) k).getD [] := by
        rw [hvs]
        exact hid'
      rw [mem_fold_bucketRemove _ _ _ _ _ hndl] at hmem
      obtain ⟨hold, hnotc⟩ := hmem
      cases hg : listGet m.index.by_line k with
      | none => rw [hg] at hold; simp at hold
      | some vs₀ =>
        rw [hg] at hold
        simp only [Option.getD_some] at hold
        obtain ⟨c', hc', hrel⟩ := (hbl k vs₀ hg).2 id' hold
        have hne : id' ≠ id := by
          intro heq
          subst heq
          rw [hr] at hc'
          replace hc' := Option.some.inj hc'
          subst hc'
          exact hnotc ⟨hcid.symm, hrel⟩
        refine ⟨c', ?_, hrel⟩
        rw [mapRemove_snd_listGet_ne _ hne]
        exact hc'
    · intro k vs hvs
      by_cases hk : k = c.file_id
      · subst hk
        obtain ⟨hne', hveq⟩ := listGet_bucketRemove_self hndf vs hvs
        refine ⟨hne', ?_⟩
        intro id' hid'
        rw [hveq, List.mem_filter] at hid'
        obtain ⟨hold, hnec⟩ := hid'
        replace hnec : id' ≠ c.id := by simpa using hnec
        cases hg : listGet m.index.by_file c.file_id with
        | none => rw [hg] at hold; simp at hold
        | some vs₀ =>
          rw [hg] at hold
          simp only [Option.getD_some] at hold
          obtain ⟨c', hc', hrel⟩ := (hbf _ vs₀ hg).2 id' hold
          have hneid : id' ≠ id := by
            intro heq
            subst heq
            rw [hr] at hc'
            replace hc' := Option.some.inj hc'
            subst hc'
            exact hnec hcid.symm
          exact ⟨c', by rw [mapRemove_snd_listGet_ne _ hneid]; exact hc', hrel⟩
      · rw [listGet_bucketRemove_ne _ _ hk] at hvs
        refine ⟨(hbf k vs hvs).1, ?_⟩
        intro id' hid'
        obtain ⟨c', hc', hrel⟩ := (hbf k vs hvs).2 id' hid'
        have hneid : id' ≠ id := by
          intro heq
          subst heq
          rw [hr] at hc'
          replace hc' := Option.some.inj hc'
          subst hc'
          exact hk hrel
        exact ⟨c', by rw [mapRemove_snd_listGet_ne _ hneid]; exact hc', hrel⟩
    · intro k vs hvs
      by_cases hk : k = c.severity
      · subst hk
        obtain ⟨hne', hveq⟩ := listGet_bucketRemove_self hnds vs hvs
        refine ⟨hne', ?_⟩
        intro id' hid'
        rw [hveq, List.mem_filter] at hid'
        obtain ⟨hold, hnec⟩ := hid'
        replace hnec : id' ≠ c.id := by simpa using hnec
        cases hg : listGet m.index.by_severity c.severity with
        | none => rw [hg] at hold; simp at hold
        | some vs₀ =>
          rw [hg] at hold
          simp only [Option.getD_some] at hold
          obtain ⟨c', hc', hrel⟩ := (hbs _ vs₀ hg).2 id' hold
          have hneid : id' ≠ id := by
            intro heq
            subst heq
            rw [hr] at hc'
            replace hc' := Option.some.inj hc'
            subst hc'
            exact hnec hcid.symm
          exact ⟨c', by rw [mapRemove_snd_listGet_ne _ hneid]; exact hc', hrel⟩
      · rw [listGet_bucketRemove_ne _ _ hk] at hvs
        refine ⟨(hbs k vs hvs).1, ?_⟩
        intro id' hid'
        obtain ⟨c', hc', hrel⟩ := (hbs k vs hvs).2 id' hid'
        have hneid : id' ≠ id := by
          intro heq
          subst heq
          rw [hr] at hc'
          replace hc' := Option.some.inj hc'
          subst hc'
          exact hk hrel
        exact ⟨c', by rw [mapRemove_snd_listGet_ne _ hneid]; exact hc', hrel⟩

theorem MReach_ManagerInv {m : CommentManager} (h : MReach m) : ManagerInv m := by
  induction h with
  | new => exact inv_new
  | add hm ih => exact inv_add _ ih
  | update hm ih => exact inv_update _ _ _ ih
  | update_state hm ih => exact inv_update_state _ _ _ ih
  | delete hm ih => exact inv_delete _ ih

/-- C4: over every reachable `CommentManager`: a successful `add(c)` puts
`c.id` into the by-line bucket of every line id of `c`, into the by-file
bucket of `c.file_id()` and the by-severity bucket of `c.severity`; a
successful `delete(id)` removes the deleted comment's id from every bucket
of all three index maps; and no index map retains a key whose entry list
is empty. -/
theorem comment_index_consistency :
    ∀ m : CommentManager, MReach m →
      (∀ (c : Comment) (rid : String) (m' : CommentManager),
        m.add c = (.ok rid, m') →
        (∀ l ∈ c.line_ids, c.id ∈ m'.index.get_by_line l)
        ∧ c.id ∈ m'.index.get_by_file c.file_id
        ∧ c.id ∈ m'.index.get_by_severity c.severity)
      ∧ (∀ (id : String) (c : Comment) (m' : CommentManager),
          m.delete id = (.ok c, m') →
          ∀ (lid fid : String) (sev : Severity),
            c.id ∉ m'.index.get_by_line lid
            ∧ c.id ∉ m'.index.get_by_file fid
            ∧ c.id ∉ m'.index.get_by_severity sev)
      ∧ (∀ k vs, listGet m.index.by_line k = some vs → vs ≠ [])
      ∧ (∀ k vs, listGet m.index.by_file k = some vs → vs ≠ [])
      ∧ (∀ k vs, listGet m.index.by_severity k = some vs → vs ≠ []) := by
  intro m hreach
  obtain ⟨hnd, hkey, hndl, hndf, hnds, hbl, hbf, hbs⟩ := MReach_ManagerInv hreach
  refine ⟨?_, ?_, fun k vs hvs => (hbl k vs hvs).1,
    fun k vs hvs => (hbf k vs hvs).1, fun k vs hvs => (hbs k vs hvs).1⟩
  · intro c rid m' hadd
    unfold CommentManager.add at hadd
    split at hadd
    · have := congrArg Prod.fst hadd
      simp at this
    · have h2 : m' = { comments := mapInsert m.comments c.id c, index := m.index.add c } :=
        (congrArg Prod.snd hadd).symm
      subst h2
      unfold CommentIndex.add CommentIndex.get_by_line CommentIndex.get_by_file
        CommentIndex.get_by_severity
      dsimp only
      refine ⟨?_, ?_, ?_⟩
      · intro l hl
        rw [mem_fold_entryPush]
        exact Or.inr ⟨rfl, hl⟩
      · rw [listGet_entryPush_self]
        simp
      · rw [listGet_entryPush_self]
        simp
  · intro id c m' hdel
    unfold CommentManager.delete at hdel
    dsimp only at hdel
    split at hdel
    · have := congrArg Prod.fst hdel
      simp at this
    · rename_i c₀ hr
      rw [mapRemove_fst] at hr
      have h1 : c₀ = c := Except.ok.inj (congrArg Prod.fst hdel)
      subst h1
      have h2 : m' = ⟨(mapRemove m.comments id).2, m.index.remove c₀⟩ :=
        (congrArg Prod.snd hdel).symm
      subst h2
      have hcid : c₀.id = id := hkey id c₀ hr
      intro lid fid sev
      unfold CommentIndex.remove CommentIndex.get_by_line CommentIndex.get_by_file
        CommentIndex.get_by_severity
      dsimp only
      refine ⟨?_, ?_, ?_⟩
      · intro hmem
        rw [mem_fold_bucketRemove _ _ _ _ _ hndl] at hmem
        obtain ⟨hold, hnotc⟩ := hmem
        cases hg : listGet m.index.by_line lid with
        | none => rw [hg] at hold; simp at hold
        | some vs₀ =>
          rw [hg] at hold
          simp only [Option.getD_some] at hold
          obtain ⟨c', hc', hrel⟩ := (hbl lid vs₀ hg).2 c₀.id hold
          rw [hcid, hr] at hc'
          replace hc' := Option.some.inj hc'
          subst hc'
          exact hnotc ⟨rfl, hrel⟩
      · intro hmem
        rw [mem_bucketRemove hndf] at hmem
        obtain ⟨hold, hnotc⟩ := hmem
        cases hg : listGet m.index.by_file fid with
        | none => rw [hg] at hold; simp at hold
        | some vs₀ =>
          rw [hg] at hold
          simp only [Option.getD_some] at hold
          obtain ⟨c', hc', hrel⟩ := (hbf fid vs₀ hg).2 c₀.id hold
          rw [hcid, hr] at hc'
          replace hc' := Option.some.inj hc'
          subst hc'
          exact hnotc ⟨hrel, rfl⟩
      · intro hmem
        rw [mem_bucketRemove hnds] at hmem
        obtain ⟨hold, hnotc⟩ := hmem
        cases hg : listGet m.index.by_severity sev with
        | none => rw [hg] at hold; simp at hold
        | some vs₀ =>
          rw [hg] at hold
          simp only [Option.getD_some] at hold
          obtain ⟨c', hc', hrel⟩ := (hbs sev vs₀ hg).2 c₀.id hold
          rw [hcid, hr] at hc'
          replace hc' := Option.some.inj hc'
          subst hc'
          exact hnotc ⟨hrel, rfl⟩

/-- Witness for `comment_index_consistency`: adding the concrete comment
`cW` to the empty manager indexes it under its line, file and severity,
and deleting it removes its id from every bucket. -/
theorem comment_index_consistency_witness :
    (CommentManager.new.add cW).1 = .ok "c1"
    ∧ "c1" ∈ mW1.index.get_by_line "l1"
    ∧ "c1" ∈ mW1.index.get_by_file "f1"
    ∧ "c1" ∈ mW1.index.get_by_severity .warning
    ∧ (mW1.delete "c1").1 = .ok cW
    ∧ "c1" ∉ (mW1.delete "c1").2.index.get_by_line "l1" := by
  have h0 := comment_index_consistency CommentManager.new MReach.new
  have h1 := comment_index_consistency mW1 (MReach.add MReach.new)
  have hadd : CommentManager.new.add cW = (.ok "c1", mW1) := by decide
  have hdel : mW1.delete "c1" = (.ok cW, (mW1.delete "c1").2) := by decide
  obtain ⟨hline, hfile, hsev⟩ := h0.1 cW "c1" mW1 hadd
  obtain ⟨hnl, -, -⟩ := h1.2.1 "c1" cW (mW1.delete "c1").2 hdel "l1" "f1" .warning
  exact ⟨by decide, hline "l1" (by decide), hfile, hsev, by decide, hnl⟩

end CrHelper
